import Mathlib

/-!
Verification development for the symbolic block analyzer / re-emitter of
VTIL-Architecture (src/VTIL-Compiler/analysis/symbolic_analysis.hpp).

The development shallowly embeds the parts of `symbolic_segment` and
`symbolic_analysis` that the claims concern:

* the block partitioner `symbolic_analysis::update` (lines 205-246),
* the branching dispatch of `symbolic_segment::execute` (lines 98-186),
* the reference-tracking reads `read_register` / `read_memory` (lines 54-84),
* the preparation pass `symbolic_analysis::prepare` with its
  conditional-jump recovery scan (lines 250-387),
* the per-segment emission pipeline of `symbolic_analysis::reemit`
  (lines 391-630).

External collaborators (the expression layer, the memory/register state
containers, the default instruction interpreter driven through
`vm_interface::run`) are not part of the analysed source; they are
represented by abstract type and function parameters, and, where a claim
depends on their behaviour, by contracts whose fields are justified from
the specification (marked `Modelled from the spec:`).

Iterators into a basic block are embedded as natural-number indices; a
block of length `n` has instruction positions `0, ..., n - 1` and
`it.is_end()` corresponds to the index being `n`.
-/

namespace VTILA

/-- `vm_exit_reason` of the VM layer, as used by `symbolic_analysis.hpp`. -/
inductive VmExitReason where
  | none
  | streamEnd
  | aliasFailure
  | highArithmetic
  | unknownInstruction
deriving DecidableEq, Repr

namespace Update

/-- Modelled from the spec: the observable outcome of one `symbolic_segment::run`
invocation (§4.2 `(it, seg.exit_reason) ← seg.run(it)`).  `vm_interface::run`
and the default interpreter are external to the analysed source (§1), so a run
starting at instruction index `i` from a fresh (empty) register and memory
state is abstracted into: the returned iterator `stop`, the exit reason, and
the sizes of the accumulated register and memory state
(`register_state.size()` / `memory_state.size()` as tested at line 232). -/
structure RunOutcome where
  stop : Nat
  reason : VmExitReason
  regSize : Nat
  memSize : Nat
deriving DecidableEq, Repr

/-- Projection of `symbolic_segment` to the fields the partitioner claims
concern: the exit reason, the `[segment_begin, segment_end)` range, the
`suffix` of instruction indices appended verbatim, and the state sizes. -/
structure UpdSegment where
  exit_reason : VmExitReason
  segment_begin : Nat
  segment_end : Nat
  suffix : List Nat
  regSize : Nat
  memSize : Nat
deriving DecidableEq, Repr

/-- A freshly closed segment as produced at lines 217-219: created at `i`,
run once, `segment_end` set to the returned iterator, empty suffix. -/
def UpdSegment.fresh (i : Nat) (o : RunOutcome) : UpdSegment :=
  { exit_reason := o.reason, segment_begin := i, segment_end := o.stop,
    suffix := [], regSize := o.regSize, memSize := o.memSize }

/-- A fresh segment that immediately captured its stopping instruction in the
suffix (lines 240-243: `seg->suffix.emplace_back( it++ ); seg->segment_end = it;`). -/
def UpdSegment.freshSuffixed (i : Nat) (o : RunOutcome) : UpdSegment :=
  { exit_reason := o.reason, segment_begin := i, segment_end := o.stop + 1,
    suffix := [o.stop], regSize := o.regSize, memSize := o.memSize }

/-- Folding of an empty popped segment into the previous one (lines 236-243):
the previous segment hosts the stopping instruction `j` in its suffix and its
`segment_end` advances past `j`. -/
def UpdSegment.foldInto (prev : UpdSegment) (j : Nat) : UpdSegment :=
  { prev with suffix := prev.suffix ++ [j], segment_end := j + 1 }

/-- The loop of `symbolic_analysis::update` (lines 211-245), with the fuel
argument bounding the number of iterations (the C++ loop terminates because
every iteration advances the iterator; the contract below makes that
explicit, and `update` passes enough fuel).

Loop body, mirroring the source:
* `it.is_end()` → stop (`i = n`);
* run the VM from `i` (`o := run i`), close the segment at `o.stop`;
* `stream_end` → keep the segment and break (line 223);
* `alias_failure` → keep the segment as closed, restart at the same
  instruction `o.stop` (nothing appended, iterator not advanced past it);
* otherwise (high arithmetic / unknown instruction): if the VM state is
  empty and this is not the first segment (`segments.size() > 1`), pop the
  segment and fold the stopping instruction into the previous segment's
  suffix; else append the stopping instruction to this segment's suffix;
  in both cases continue past the stopping instruction. -/
def updateGo (run : Nat → RunOutcome) (n : Nat) : Nat → Nat → List UpdSegment → List UpdSegment
  | 0, _, acc => acc
  | fuel + 1, i, acc =>
    if i = n then acc
    else
      if (run i).reason = VmExitReason.streamEnd then
        acc ++ [UpdSegment.fresh i (run i)]
      else if (run i).reason = VmExitReason.aliasFailure then
        updateGo run n fuel (run i).stop (acc ++ [UpdSegment.fresh i (run i)])
      else if (run i).regSize = 0 ∧ (run i).memSize = 0 then
        match acc.getLast? with
        | some prev =>
          updateGo run n fuel ((run i).stop + 1)
            (acc.dropLast ++ [UpdSegment.foldInto prev (run i).stop])
        | Option.none =>
          updateGo run n fuel ((run i).stop + 1) (acc ++ [UpdSegment.freshSuffixed i (run i)])
      else
        updateGo run n fuel ((run i).stop + 1) (acc ++ [UpdSegment.freshSuffixed i (run i)])

/-- `symbolic_analysis::update` on a block of `n` instructions: clear the
segments, then drive the loop from `block->begin()` (index `0`). -/
def update (run : Nat → RunOutcome) (n : Nat) : List UpdSegment :=
  updateGo run n (n + 1) 0 []

/-- `chainFrom b segs e`: the segments cover `[b, e)` contiguously, each with
`segment_begin ≤ segment_end`. -/
def chainFrom (b : Nat) : List UpdSegment → Nat → Prop
  | [], e => b = e
  | s :: rest, e =>
    s.segment_begin = b ∧ s.segment_begin ≤ s.segment_end ∧ chainFrom s.segment_end rest e

/-- Modelled from the spec: contract of the external `symbolic_segment::run`
(`vm_interface::run` plus the default interpreter, §1 "out of scope").  Each
field is justified from the specification:

* `not_none`: §4.2 — the run loop only stops with a definite exit reason;
  `none` means "keep executing" (§4.1 step 5 lists the possible stops).
* `stop_ge`: the run starts at `i` and only moves forward over the block.
* `stream_end_stop`: §3 — "the last segment either ends in `stream_end`
  (branch encountered; ...) or reaches the block end"; `end` is one past the
  last covered instruction, the branch is the final instruction of a basic
  block (glossary), so a `stream_end` run returns the block end.
* `mid_stop_lt`: for the non-`stream_end` reasons the stopping instruction
  exists and was not consumed (§7 table), so the returned iterator is a
  valid instruction position.
* `alias_progress`: §3 — `memory_state.write` "fails when the new write
  cannot be proven to either fully alias or fully not-alias an existing
  entry"; a fresh run has no existing entries, so its first write is
  accepted and an alias failure can only occur after at least one
  instruction was consumed.
* `alias_retry_nonempty`: §4.2 — after an alias failure "the next segment
  restarts with an empty memory state which will ... now accept the write"
  (an empty store has no entry to be ambiguous against, §3), so the
  restarted run records at least that memory write. -/
structure RunContract (run : Nat → RunOutcome) (n : Nat) : Prop where
  not_none : ∀ i, i < n → (run i).reason ≠ VmExitReason.none
  stop_ge : ∀ i, i < n → i ≤ (run i).stop
  stream_end_stop : ∀ i, i < n → (run i).reason = VmExitReason.streamEnd → (run i).stop = n
  mid_stop_lt : ∀ i, i < n → (run i).reason ≠ VmExitReason.streamEnd → (run i).stop < n
  alias_progress : ∀ i, i < n → (run i).reason = VmExitReason.aliasFailure → i < (run i).stop
  alias_retry_nonempty : ∀ i, i < n → (run i).reason = VmExitReason.aliasFailure →
    ¬((run ((run i).stop)).regSize = 0 ∧ (run ((run i).stop)).memSize = 0)

/-- Per-segment bookkeeping invariant of the partitioner: every segment in
the list records the outcome of the (fresh-state) VM run started at its
`segment_begin`; segments stopped by high arithmetic or an unknown
instruction carry that stopping instruction first in their suffix; segments
stopped by an alias failure or a branch were closed exactly at the returned
iterator with an empty suffix. -/
def SegGood (run : Nat → RunOutcome) (s : UpdSegment) : Prop :=
  s.exit_reason = (run s.segment_begin).reason ∧
  s.regSize = (run s.segment_begin).regSize ∧
  s.memSize = (run s.segment_begin).memSize ∧
  ((s.exit_reason = VmExitReason.highArithmetic ∨
    s.exit_reason = VmExitReason.unknownInstruction) →
      s.suffix.head? = some (run s.segment_begin).stop) ∧
  (s.exit_reason = VmExitReason.aliasFailure →
    s.suffix = [] ∧ s.segment_end = (run s.segment_begin).stop) ∧
  (s.exit_reason = VmExitReason.streamEnd →
    s.suffix = [] ∧ s.segment_end = (run s.segment_begin).stop)

/-- Invariant carried by the accumulated segment list while the `update`
loop is at iterator position `i`. -/
def AccOK (run : Nat → RunOutcome) (n : Nat) (acc : List UpdSegment) (i : Nat) : Prop :=
  chainFrom 0 acc i ∧
  ∀ s ∈ acc, SegGood run s ∧ s.segment_begin < n ∧
    s.exit_reason ≠ VmExitReason.streamEnd ∧ s.exit_reason ≠ VmExitReason.none

/-- Contiguity of the segment list over a block of `n` instructions, as
stated by claim C2: non-empty, first `segment_begin` at `block->begin()`,
adjacent segments share their boundary, last `segment_end` at `block->end()`,
and every segment has `segment_begin ≤ segment_end`. -/
def Contiguous (n : Nat) (segs : List UpdSegment) : Prop :=
  segs ≠ [] ∧
  (∀ hne : segs ≠ [],
    (segs.head hne).segment_begin = 0 ∧ (segs.getLast hne).segment_end = n) ∧
  (∀ k (hk : k + 1 < segs.length),
    (segs.get ⟨k, Nat.lt_of_succ_lt hk⟩).segment_end =
      (segs.get ⟨k + 1, hk⟩).segment_begin) ∧
  (∀ s ∈ segs, s.segment_begin ≤ s.segment_end)

/-- Claim C3 exactly as stated: every segment except possibly the last has
an exit reason among alias failure / high arithmetic / unknown instruction
AND a suffix consisting of exactly the one instruction that stopped its VM
run. -/
def C3Stated (run : Nat → RunOutcome) (segs : List UpdSegment) : Prop :=
  ∀ k (hk : k + 1 < segs.length),
    ((segs.get ⟨k, Nat.lt_of_succ_lt hk⟩).exit_reason = VmExitReason.aliasFailure ∨
     (segs.get ⟨k, Nat.lt_of_succ_lt hk⟩).exit_reason = VmExitReason.highArithmetic ∨
     (segs.get ⟨k, Nat.lt_of_succ_lt hk⟩).exit_reason = VmExitReason.unknownInstruction) ∧
    (segs.get ⟨k, Nat.lt_of_succ_lt hk⟩).suffix =
      [(run (segs.get ⟨k, Nat.lt_of_succ_lt hk⟩).segment_begin).stop]

/-- Concrete run witnessing the basic contract: a block of one instruction
whose run ends the stream (e.g. a single `jmp`). -/
def seRun : Nat → RunOutcome :=
  fun _ => { stop := 1, reason := VmExitReason.streamEnd, regSize := 0, memSize := 0 }

/-- Concrete run for a two-instruction block whose first run stops with an
alias failure after consuming one instruction; the retried run symbolizes
the write (non-empty state) and reaches the terminating branch. -/
def aliasRun : Nat → RunOutcome :=
  fun i =>
    if i = 0 then { stop := 1, reason := VmExitReason.aliasFailure, regSize := 1, memSize := 1 }
    else { stop := 2, reason := VmExitReason.streamEnd, regSize := 1, memSize := 1 }

/-- Concrete run in which every instruction is opaque: the VM stops at once
with `unknown_instruction` and an empty state. -/
def opaqueRun : Nat → RunOutcome :=
  fun i => { stop := i, reason := VmExitReason.unknownInstruction, regSize := 0, memSize := 0 }

end Update

namespace Exec

/-- Register descriptor (`register_desc`): identity key, slice, and the
capability flags `execute` and `reemit` consult. -/
structure RegDesc where
  key : Nat
  bitOffset : Nat
  bitCount : Nat
  isStackPointer : Bool
  isVolatile : Bool
  isUndefined : Bool
  isReadOnly : Bool
  isFlags : Bool
deriving DecidableEq, Repr

/-- Instruction operand: a register or an immediate with a stated bit
width (`operand::is_register()` / `is_immediate()`). -/
inductive Opnd where
  | reg (r : RegDesc)
  | imm (v : Int) (bits : Nat)
deriving DecidableEq, Repr

/-- Opcode identities `execute` and `reemit` dispatch on.  `other k` stands
for any further non-branching opcode of the instruction set. -/
inductive OpcodeK where
  | vexit
  | vxcall
  | jmp
  | js
  | mov
  | str
  | other (k : Nat)
deriving DecidableEq, Repr

/-- `ins.base->is_branching()`: exactly the four control transfers; the
`unreachable()` at line 169 documents that no other opcode is branching. -/
def OpcodeK.isBranching : OpcodeK → Bool
  | OpcodeK.vexit => true
  | OpcodeK.vxcall => true
  | OpcodeK.jmp => true
  | OpcodeK.js => true
  | _ => false

/-- Instruction view: opcode, operand list, per-instruction stack offset and
index bookkeeping, the volatile flag, and the descriptor/memory facts used
by the suffix replay in `reemit` (`base->reads_memory()`,
`memory_location()` as a `(base register, displacement)` pair). -/
structure Instr where
  base : OpcodeK
  operands : List Opnd
  sp_offset : Int
  sp_index : Int
  volatileFlag : Bool
  readsMemory : Bool
  memLoc : Option (RegDesc × Int)
deriving DecidableEq, Repr

/-- Operand access `ins.operands[ i ]` (well-formed instructions always have
the operands their opcode requires; the default is never reached there). -/
def Instr.opnd (ins : Instr) (i : Nat) : Opnd :=
  ins.operands.getD i (Opnd.imm 0 0)

/-- Abstracted expression-layer operations used by the branching dispatch:
`read_register` tracing over the segment's current state, addition of the
instruction's `sp_offset` to an expression, and construction of a constant
expression `{ imm.i64, imm.bit_count }`. -/
structure ExecOps (E : Type) where
  readReg : RegDesc → E
  addOff : E → Int → E
  constE : Int → Nat → E

/-- `cvt_operand` of `symbolic_segment::execute` (lines 109-137): a register
operand is read through `read_register`; if it is the stack pointer the
instruction's `sp_offset` is added; an immediate becomes a constant
expression at its stated bit width. -/
def cvtOperand {E : Type} (ops : ExecOps E) (spOff : Int) : Opnd → E
  | Opnd.reg r =>
    if r.isStackPointer then ops.addOff (ops.readReg r) spOff else ops.readReg r
  | Opnd.imm v b => ops.constE v b

/-- Branch bookkeeping fields of `symbolic_segment` mutated by `execute`. -/
structure BranchState (E : Type) where
  is_branch_real : Bool
  is_branch_exiting : Bool
  branch_cc : Option E
  branch_targets : List E
deriving DecidableEq, Repr

/-- The fields of a freshly constructed segment (lines 32-35). -/
def BranchState.init (E : Type) : BranchState E :=
  { is_branch_real := false, is_branch_exiting := false,
    branch_cc := Option.none, branch_targets := [] }

/-- `symbolic_segment::execute` (lines 98-186): branching dispatch for the
four control transfers, then the volatility gate, then the volatile-register
gate, and otherwise delegation to the default interpreter `interp`
(`vm_interface::execute`, external).  The `finally` guard that clears
`is_executing` is modelled separately (`Track.executeGuarded`). -/
def execute {E : Type} (ops : ExecOps E) (interp : Instr → VmExitReason)
    (ins : Instr) (st : BranchState E) : VmExitReason × BranchState E :=
  match ins.base with
  | OpcodeK.vexit =>
    (VmExitReason.streamEnd,
      { st with
        branch_targets := st.branch_targets ++ [cvtOperand ops ins.sp_offset (ins.opnd 0)],
        is_branch_real := true, is_branch_exiting := true, branch_cc := Option.none })
  | OpcodeK.vxcall =>
    (VmExitReason.streamEnd,
      { st with
        branch_targets := st.branch_targets ++ [cvtOperand ops ins.sp_offset (ins.opnd 0)],
        is_branch_real := true, is_branch_exiting := false, branch_cc := Option.none })
  | OpcodeK.jmp =>
    (VmExitReason.streamEnd,
      { st with
        branch_targets := st.branch_targets ++ [cvtOperand ops ins.sp_offset (ins.opnd 0)],
        is_branch_real := false, branch_cc := Option.none })
  | OpcodeK.js =>
    (VmExitReason.streamEnd,
      { st with
        branch_targets := st.branch_targets ++
          [cvtOperand ops ins.sp_offset (ins.opnd 1), cvtOperand ops ins.sp_offset (ins.opnd 2)],
        is_branch_real := false, branch_cc := some (cvtOperand ops ins.sp_offset (ins.opnd 0)) })
  | _ =>
    if ins.volatileFlag then (VmExitReason.unknownInstruction, st)
    else if ins.operands.any (fun op =>
        match op with
        | Opnd.reg r => r.isVolatile && !r.isUndefined
        | Opnd.imm _ _ => false) then
      (VmExitReason.unknownInstruction, st)
    else (interp ins, st)

/-- Operand bit width as stated by the instruction (`reg().bit_count` /
`imm().bit_count`). -/
def opndWidth : Opnd → Nat
  | Opnd.reg r => r.bitCount
  | Opnd.imm _ b => b

/-- Branch-field cardinality invariant claimed by the spec: `branch_cc` is
absent iff there is exactly one target, and there are one or two targets. -/
def CardFields {E : Type} (cc : Option E) (ts : List E) : Prop :=
  (cc = Option.none ↔ ts.length = 1) ∧ (ts.length = 1 ∨ ts.length = 2)

/-- `CardFields` on a segment's branch state. -/
def CardOK {E : Type} (st : BranchState E) : Prop :=
  CardFields st.branch_cc st.branch_targets

/-- Toy expression layer over `Nat` for concrete execution runs. -/
def toyXOps : ExecOps Nat :=
  { readReg := fun r => r.key
    addOff := fun e k => e + k.natAbs
    constE := fun v b => v.natAbs + b }

/-- A well-formed `js cc, t1, t2` instruction over small concrete operands. -/
def jsIns : Instr :=
  { base := OpcodeK.js,
    operands := [Opnd.reg { key := 5, bitOffset := 0, bitCount := 1,
                            isStackPointer := false, isVolatile := false,
                            isUndefined := false, isReadOnly := false, isFlags := false },
                 Opnd.imm 100 64, Opnd.imm 200 64],
    sp_offset := 0, sp_index := 0, volatileFlag := false, readsMemory := false,
    memLoc := Option.none }

end Exec

namespace Track

/-- `register_references[ key ] |= mask` (and likewise for
`memory_references`): an association-list update that ORs the mask into the
entry, inserting it if absent. -/
def addRef : List (Nat × Nat) → Nat → Nat → List (Nat × Nat)
  | [], k, m => [(k, m)]
  | (k2, m2) :: rest, k, m =>
    if k2 = k then (k2, m2 ||| m) :: rest else (k2, m2) :: addRef rest k m

/-- `register_desc::get_mask()`: `math::fill(bit_count) << bit_offset`. -/
def regMask (d : Exec.RegDesc) : Nat := (2 ^ d.bitCount - 1) <<< d.bitOffset

/-- Segment state relevant to reference tracking: the transient
`is_executing` flag, the (abstract) register and memory state, the suffix
and branch fields, and the two reference maps (keys abstracted to `Nat`). -/
structure TrackSeg (E RS MS : Type) where
  is_executing : Bool
  register_state : RS
  memory_state : MS
  suffix : List Nat
  branch : Exec.BranchState E
  register_references : List (Nat × Nat)
  memory_references : List (Nat × Nat)
deriving DecidableEq, Repr

/-- `symbolic_segment::read_register` (lines 54-66): read the slice from
`register_state` (external container, abstracted as `regRead`, returning the
expression and the `known` mask), and, only if `is_executing` is set and
some requested bit was unresolved (`read & ~known`), OR those bits into
`register_references[ desc ]`. -/
def readRegister {E RS MS : Type} (regRead : RS → Exec.RegDesc → E × Nat)
    (s : TrackSeg E RS MS) (desc : Exec.RegDesc) : E × TrackSeg E RS MS :=
  let result := (regRead s.register_state desc).1
  let known := (regRead s.register_state desc).2
  let unresolved := Nat.ldiff (regMask desc) known
  if s.is_executing ∧ unresolved ≠ 0 then
    (result,
      { s with register_references := addRef s.register_references desc.key unresolved })
  else (result, s)

/-- `symbolic_segment::read_memory` (lines 67-84): analogous on
`memory_state`, with the requested mask `math::fill(byte_count * 8)` and the
pointer (abstracted to a key) as the reference-map index. -/
def readMemory {E RS MS : Type} (memRead : MS → Nat → Nat → E × Nat)
    (s : TrackSeg E RS MS) (pointer : Nat) (byteCount : Nat) : E × TrackSeg E RS MS :=
  let result := (memRead s.memory_state pointer byteCount).1
  let known := (memRead s.memory_state pointer byteCount).2
  let unresolved := Nat.ldiff (2 ^ (byteCount * 8) - 1) known
  if s.is_executing ∧ unresolved ≠ 0 then
    (result,
      { s with memory_references := addRef s.memory_references pointer unresolved })
  else (result, s)

/-- The `finally` guard of `symbolic_segment::execute` (lines 100-103):
`is_executing` is set for the duration of the body and cleared again on
every exit path. -/
def executeGuarded {E RS MS A : Type} (body : TrackSeg E RS MS → A × TrackSeg E RS MS)
    (s : TrackSeg E RS MS) : A × TrackSeg E RS MS :=
  let r := body { s with is_executing := true }
  (r.1, { r.2 with is_executing := false })

/-- The register reads `reemit` performs against a segment: the full-slice
writeback reads (line 453) and the `$sp` reconciliation read (line 547),
folded over the segment in order. -/
def reemitReads {E RS MS : Type} (regRead : RS → Exec.RegDesc → E × Nat)
    (descs : List Exec.RegDesc) (s : TrackSeg E RS MS) : TrackSeg E RS MS :=
  descs.foldl (fun t d => (readRegister regRead t d).2) s

/-- Toy register-state reader: everything resolves to `(0, known = 0)`. -/
def regRead0 : Nat → Exec.RegDesc → Nat × Nat := fun _ _ => (0, 0)

/-- Toy memory-state reader. -/
def memRead0 : Nat → Nat → Nat → Nat × Nat := fun _ _ _ => (0, 0)

/-- A quiescent segment (not inside `execute`). -/
def seg0 : TrackSeg Nat Nat Nat :=
  { is_executing := false, register_state := 0, memory_state := 0, suffix := [],
    branch := Exec.BranchState.init Nat, register_references := [],
    memory_references := [] }

end Track

namespace Prep

/-- Abstracted expression-layer operations used by `symbolic_analysis::prepare`
(lines 250-387).  `simplify b e` is `e.simplify( b )`; `depth` is
`expression::depth`; `mask1 e` decides
`( e.value.unknown_mask() | e.value.known_one() ) == 1`; `hash` is
`expression::hash()`; `sat st cc` / `nsat st cc` are the two structural
`transform` passes over `st` that replace sub-expressions matching `cc` by
the constant `1` (resp. `0`) and those matching `~cc` by `0` (resp. `1`),
rebuilding memory-variable pointers along the way (lines 325-372); `enum st`
is the deterministic pre-order visit of `st`'s sub-expressions performed by
`enumerate`, including the recursion into memory-variable backing pointers
(lines 296-301). -/
structure PrepOps (E : Type) where
  simplify : Bool → E → E
  depth : E → Nat
  mask1 : E → Bool
  hash : E → Nat
  sat : E → E → E
  nsat : E → E → E
  enum : E → List E

/-- One candidate examination of the `ccscan` closure (lines 305-381): a
sub-expression is considered only if its value mask is one bit; the two
transformed statements are built, and the candidate is committed iff both of
them hash differently from the untransformed statement. -/
def commitCheck {E : Type} (P : PrepOps E) (statement cc : E) : Option (E × E × E) :=
  if P.mask1 cc then
    if P.hash (P.sat statement cc) ≠ P.hash statement ∧
        P.hash (P.nsat statement cc) ≠ P.hash statement then
      some (cc, P.sat statement cc, P.nsat statement cc)
    else Option.none
  else Option.none

/-- The scan `statement->enumerate( ccscan )` (line 383): candidates are
examined in enumeration order, and the early `if ( seg.branch_cc ) return;`
(line 291) makes the first committed candidate final — later visits change
nothing. -/
def ccscan {E : Type} (P : PrepOps E) (statement : E) : Option (E × E × E) :=
  (P.enum statement).foldl
    (fun acc cc =>
      match acc with
      | some r => some r
      | Option.none => commitCheck P statement cc)
    Option.none

/-- A candidate that the scan would commit on `statement`. -/
def Commits {E : Type} (P : PrepOps E) (statement cc : E) : Prop :=
  P.mask1 cc = true ∧
  P.hash (P.sat statement cc) ≠ P.hash statement ∧
  P.hash (P.nsat statement cc) ≠ P.hash statement

/-- Segment state as `prepare` sees it: the stored register partial values
and memory values (flattened to lists of expressions) and the branch
fields. -/
structure PrepSeg (E : Type) where
  regVals : List E
  memVals : List E
  branch_cc : Option E
  branch_targets : List E
deriving DecidableEq, Repr

/-- `symbolic_analysis::prepare` on one segment (lines 254-385): simplify
the register and memory values with the chosen packer, simplify the branch
targets and condition with `simplify( true )`, and, for a non-constant jump
(`!seg.branch_cc && seg.branch_targets[ 0 ]->depth > 2`), run the
conditional-jump recovery: on commit set `branch_cc = cc` and
`branch_targets = { cnd_sat, cnd_nsat }`. -/
def prepareSeg {E : Type} (P : PrepOps E) (pack : Bool) (s : PrepSeg E) : PrepSeg E :=
  let rv := s.regVals.map (P.simplify pack)
  let mv := s.memVals.map (P.simplify pack)
  match s.branch_targets with
  | [] =>
    { regVals := rv, memVals := mv, branch_cc := s.branch_cc, branch_targets := [] }
  | t0 :: rest =>
    let t0s := P.simplify true t0
    let ts := t0s :: rest.map (P.simplify true)
    match s.branch_cc with
    | some c =>
      { regVals := rv, memVals := mv, branch_cc := some (P.simplify true c),
        branch_targets := ts }
    | Option.none =>
      if P.depth t0s > 2 then
        match ccscan P t0s with
        | some (c, cs, cn) =>
          { regVals := rv, memVals := mv, branch_cc := some c, branch_targets := [cs, cn] }
        | Option.none =>
          { regVals := rv, memVals := mv, branch_cc := Option.none, branch_targets := ts }
      else { regVals := rv, memVals := mv, branch_cc := Option.none, branch_targets := ts }

/-- Toy expression layer on pairs `(tag, bit width)` exercising the recovery:
every sub-expression passes the one-bit value-mask test, and both transformed
statements hash differently from the original, so the single enumerated
candidate — whose bit width is 64 — is committed. -/
def toyP : PrepOps (Nat × Nat) :=
  { simplify := fun _ e => e
    depth := fun _ => 3
    mask1 := fun _ => true
    hash := fun e => e.1
    sat := fun st _ => (st.1 + 1, st.2)
    nsat := fun st _ => (st.1 + 2, st.2)
    enum := fun _ => [(7, 64)] }

/-- Toy segment: a lone deep branch target and no condition. -/
def toySeg : PrepSeg (Nat × Nat) :=
  { regVals := [], memVals := [], branch_cc := Option.none, branch_targets := [(0, 64)] }

end Prep

namespace Reemit

/-- Operand produced by the batch translator: a register (temporary or
architectural) or an immediate. -/
inductive TOp where
  | treg (id : Nat)
  | timm (v : Int) (bits : Nat)
deriving DecidableEq, Repr

/-- `operand::is_immediate()` on translator outputs. -/
def TOp.isImmediate : TOp → Bool
  | TOp.timm _ _ => true
  | _ => false

/-- Trace of what `reemit` appends to `temporary_block` for one segment.
`shiftSp` records the bookkeeping call `temporary_block.shift_sp( δ )`,
which advances the virtual stack pointer without emitting an instruction;
the other constructors are emitted instructions. -/
inductive EmitItem (E : Type) where
  | movReg (k : Exec.RegDesc) (src : TOp)
  | movFlagBit (k : Exec.RegDesc) (src : TOp)
  | movHoist (tmp : TOp) (src : TOp)
  | strSp (disp : Int) (val : TOp)
  | strMem (base : TOp) (off : Int) (val : TOp)
  | movSp (src : TOp)
  | shiftSp (d : Int)
  | suffixClone (ins : Exec.Instr)
  | brVexit (t : TOp)
  | brVxcall (t : TOp)
  | brJs (cc : TOp) (t0 t1 : TOp)
  | brJmp (t : TOp)
deriving DecidableEq, Repr

/-- `math::popcnt` restricted to 64-bit bitmaps. -/
def popcnt64 (n : Nat) : Nat := ((List.range 64).filter (fun i => n.testBit i)).length

/-- `math::msb` restricted to 64-bit bitmaps. -/
def msb64 (n : Nat) : Nat := (List.range 64).foldl (fun a i => if n.testBit i then i else a) 0

/-- `math::bit_enum`: the set bit indices in ascending order. -/
def bitIndices (n : Nat) : List Nat := (List.range 64).filter (fun i => n.testBit i)

/-- One entry of `vm.register_state` as iterated at line 412: the weak key
with its flags, the modified-bit bitmap, and the externally computed values —
`bitVal i` is `pack_all( linear_store[ i ] )`'s input, `msbSize` is
`linear_store[ write_msb ].size()`, and `fullVal` is
`vm.read_register( k ).simplify( true )`. -/
structure RegEntry (E : Type) where
  key : Exec.RegDesc
  bitmap : Nat
  msbSize : Nat
  bitVal : Nat → E
  fullVal : E

/-- One entry of `vm.memory_state` as iterated at line 463: the stored value,
the displacement `k - CTX( segment_begin )[ REG_SP ]` when it resolves, and
the pointer base expression `k.base`. -/
structure MemEntry (E : Type) where
  value : E
  spDisp : Option Int
  base : E

/-- The `REG_SP` entry of `register_state.value_map` (line 543): its bitmap,
the read-back value `new_sp`, and the constant resolution of
`new_sp - CTX( segment_begin )[ REG_SP ]`. -/
structure SpEntry (E : Type) where
  bitmap : Nat
  newSp : E
  delta : Option Int

/-- A segment as consumed read-only by `reemit`. -/
structure RSeg (E : Type) where
  regs : List (RegEntry E)
  mems : List (MemEntry E)
  spEntry : Option (SpEntry E)
  suffix : List Exec.Instr
  is_branch_real : Bool
  is_branch_exiting : Bool
  branch_cc : Option E
  branch_targets : List E
  segEndPrevSpOffset : Int
  blockEndSpOffset : Int

/-- Stack bookkeeping of `temporary_block` plus its temporary counter. -/
structure BlkState where
  sp_offset : Int
  sp_index : Int
  tmpCounter : Nat
deriving DecidableEq, Repr

/-- Abstracted expression-layer operations used by `reemit`: `pack_all`,
the batch translator (whose internal temporary lifting never targets the
stack pointer), `expression::is_constant()`, and the directive
`fast_match` against `A + U` / `A - U` returning the base and the signed
constant offset. -/
structure ReemitOps (E : Type) where
  packAll : E → E
  translate : E → TOp
  isConst : E → Bool
  fastMatch : E → Option (E × Int)

/-- Register writeback for one entry (lines 412-458): skip unchanged
entries and the stack pointer; for a sparsely modified flags register emit
one 1-bit `mov` per set bit; otherwise emit a single `mov` of the packed
full slice. -/
def regWriteback {E : Type} (ops : ReemitOps E) (e : RegEntry E) : List (EmitItem E) :=
  if e.bitmap = 0 ∨ e.key.isStackPointer then []
  else
    let writeMsb := msb64 e.bitmap
    let k : Exec.RegDesc := { e.key with bitCount := e.msbSize, bitOffset := writeMsb }
    if k.isFlags ∧ popcnt64 e.bitmap ≤ 4 then
      (bitIndices e.bitmap).map (fun i =>
        EmitItem.movFlagBit { k with bitOffset := k.bitOffset + i, bitCount := 1 }
          (ops.translate (ops.packAll (e.bitVal i))))
    else
      [EmitItem.movReg k (ops.translate (ops.packAll e.fullVal))]

/-- Offset extraction for a memory-writeback base (lines 484-502): pack the
pointer base; when it is not constant, try to split it as `A + U` or
`A - U` with `U` constant, yielding the base sub-expression and the signed
offset; otherwise keep it with offset `0`. -/
def memBaseSplit {E : Type} (ops : ReemitOps E) (e : MemEntry E) : E × Int :=
  let exp := ops.packAll e.base
  if ops.isConst exp then (exp, (0 : Int))
  else
    match ops.fastMatch exp with
    | some (a, u) => (a, u)
    | Option.none => (exp, (0 : Int))

/-- Memory writeback for one entry (lines 463-521): a constant displacement
from the initial `$sp` becomes `str $sp, d, v`; otherwise the base is
split via `memBaseSplit`, translated, hoisted into a temporary if it
folded to an immediate, and written with `str base, offset, v`. -/
def memWriteback {E : Type} (ops : ReemitOps E) (blk : BlkState) (e : MemEntry E) :
    BlkState × List (EmitItem E) :=
  let v := ops.packAll e.value
  match e.spDisp with
  | some d => (blk, [EmitItem.strSp d (ops.translate v)])
  | Option.none =>
    let b := ops.translate (memBaseSplit ops e).1
    if b.isImmediate then
      ({ blk with tmpCounter := blk.tmpCounter + 1 },
        [EmitItem.movHoist (TOp.treg blk.tmpCounter) b,
         EmitItem.strMem (TOp.treg blk.tmpCounter) (memBaseSplit ops e).2
           (ops.translate v)])
    else (blk, [EmitItem.strMem b (memBaseSplit ops e).2 (ops.translate v)])

/-- Stack-pointer reconciliation (lines 542-558): if `register_state` holds
a modified `$sp` entry, either `shift_sp( δ )` when the delta resolves to a
constant (no instruction emitted, `sp_offset` advanced, `sp_offset_d = δ`),
or a single `mov $sp, <packed translated new_sp>` with `sp_offset_d = 0`. -/
def spReconcile {E : Type} (ops : ReemitOps E) (sp : Option (SpEntry E)) (blk : BlkState) :
    BlkState × List (EmitItem E) × Int :=
  match sp with
  | some e =>
    if e.bitmap ≠ 0 then
      match e.delta with
      | some d => ({ blk with sp_offset := blk.sp_offset + d }, [EmitItem.shiftSp d], d)
      | Option.none =>
        (blk, [EmitItem.movSp (ops.translate (ops.packAll e.newSp))], 0)
    else (blk, [], 0)
  | Option.none => (blk, [], 0)

/-- Suffix clone adjustment (lines 567-572): shift `sp_index` and
`sp_offset`, and displace a `$sp`-relative memory location by
`sp_offset_d`. -/
def adjustClone (ins : Exec.Instr) (spIdxD spOffD : Int) : Exec.Instr :=
  let ins2 := { ins with sp_index := ins.sp_index + spIdxD,
                         sp_offset := ins.sp_offset + spOffD }
  if ins2.readsMemory &&
      (match ins2.memLoc with
       | some (r, _) => r.isStackPointer
       | Option.none => false) then
    { ins2 with memLoc := ins2.memLoc.map (fun p => (p.1, p.2 + spOffD)) }
  else ins2

/-- Suffix replay (lines 562-578): clone each captured instruction with the
index/offset adjustments, append without post-processing, and track the
block's `sp_index` / `sp_offset` along. -/
def suffixEmit {E : Type} (suffix : List Exec.Instr) (spOffD : Int) (blk : BlkState) :
    BlkState × List (EmitItem E) :=
  match suffix with
  | [] => (blk, [])
  | first :: _ =>
    let spIdxD := blk.sp_index - first.sp_index
    suffix.foldl
      (fun acc iit =>
        let ins := adjustClone iit spIdxD spOffD
        ({ acc.1 with sp_index := ins.sp_index, sp_offset := ins.sp_offset },
          acc.2 ++ [EmitItem.suffixClone ins]))
      (blk, [])

/-- Branch emission (lines 586-616): a real branch becomes `vexit`/`vxcall`;
a recovered condition becomes `js` when the condition translated to a
register and an unconditional `jmp` to the decided side when it folded to an
immediate; otherwise a plain `jmp`; afterwards the end-of-block `sp_offset`
is re-anchored. -/
def branchEmit {E : Type} (seg : RSeg E) (spOffD : Int) (blk : BlkState)
    (ccOp : Option TOp) (tOps : List TOp) : BlkState × List (EmitItem E) :=
  match tOps with
  | [] => (blk, [])
  | t0 :: rest =>
    let items :=
      if seg.is_branch_real then
        if seg.is_branch_exiting then [EmitItem.brVexit t0] else [EmitItem.brVxcall t0]
      else
        match ccOp with
        | some c =>
          match c with
          | TOp.treg i => [EmitItem.brJs (TOp.treg i) t0 (rest.getD 0 t0)]
          | TOp.timm v _b => [EmitItem.brJmp (if v ≠ 0 then rest.getD 0 t0 else t0)]
        | Option.none => [EmitItem.brJmp t0]
    ({ blk with sp_offset := seg.blockEndSpOffset + spOffD }, items)

/-- Result of re-emitting one segment: the trace of appended items, the
local `sp_offset_d`, and the final block bookkeeping. -/
structure SegEmit (E : Type) where
  items : List (EmitItem E)
  sp_offset_d : Int
  blk : BlkState

/-- Step 1 of the per-segment body of `reemit`: the buffered register
writebacks over all register-state entries. -/
def buf1Of {E : Type} (ops : ReemitOps E) (seg : RSeg E) : List (EmitItem E) :=
  seg.regs.flatMap (regWriteback ops)

/-- Step 2: the buffered memory writebacks, threading the temporary counter
through the entries in order. -/
def step2Of {E : Type} (ops : ReemitOps E) (seg : RSeg E) (blk0 : BlkState) :
    BlkState × List (EmitItem E) :=
  seg.mems.foldl
    (fun acc e =>
      let r := memWriteback ops acc.1 e
      (r.1, acc.2 ++ r.2))
    (blk0, ([] : List (EmitItem E)))

/-- Step 5: the stack-pointer reconciliation after the buffer flush. -/
def step5Of {E : Type} (ops : ReemitOps E) (seg : RSeg E) (blk0 : BlkState) :
    BlkState × List (EmitItem E) × Int :=
  spReconcile ops seg.spEntry (step2Of ops seg blk0).1

/-- Step 6: the suffix replay under `sp_offset_d`. -/
def step6Of {E : Type} (ops : ReemitOps E) (seg : RSeg E) (blk0 : BlkState) :
    BlkState × List (EmitItem E) :=
  suffixEmit seg.suffix (step5Of ops seg blk0).2.2 (step5Of ops seg blk0).1

/-- Step 7: the `sp_offset` re-anchoring of line 582. -/
def blk7Of {E : Type} (ops : ReemitOps E) (seg : RSeg E) (blk0 : BlkState) : BlkState :=
  { (step6Of ops seg blk0).1 with
    sp_offset := seg.segEndPrevSpOffset + (step5Of ops seg blk0).2.2 }

/-- Steps 3 and 8: branch operands are translated up front (step 3) and the
branch is emitted last (step 8). -/
def step8Of {E : Type} (ops : ReemitOps E) (seg : RSeg E) (blk0 : BlkState) :
    BlkState × List (EmitItem E) :=
  branchEmit seg ((step5Of ops seg blk0).2.2) (blk7Of ops seg blk0)
    (seg.branch_cc.map (fun c => ops.translate (ops.packAll c)))
    (seg.branch_targets.map (fun t => ops.translate (ops.packAll t)))

/-- The per-segment body of `symbolic_analysis::reemit` (lines 401-616) in
source order: register writebacks, memory writebacks, branch-operand
translation, buffer flush, stack-pointer reconciliation, suffix replay, the
`sp_offset` re-anchoring of line 582, and branch emission; each local of the
source body is one of the `...Of` definitions above. -/
def reemitSegment {E : Type} (ops : ReemitOps E) (seg : RSeg E) (blk0 : BlkState) :
    SegEmit E :=
  { items := buf1Of ops seg ++ (step2Of ops seg blk0).2 ++ (step5Of ops seg blk0).2.1 ++
      (step6Of ops seg blk0).2 ++ (step8Of ops seg blk0).2,
    sp_offset_d := (step5Of ops seg blk0).2.2,
    blk := (step8Of ops seg blk0).1 }

/-- Any `mov` whose destination is the stack pointer, wherever it came
from — the reconciliation `mov $sp`, a (guarded-out) writeback, or a
verbatim suffix clone of a `mov` to `$sp`. -/
def isMovToSp {E : Type} : EmitItem E → Bool
  | EmitItem.movSp _ => true
  | EmitItem.movReg k _ => k.isStackPointer
  | EmitItem.movFlagBit k _ => k.isStackPointer
  | EmitItem.suffixClone ins =>
    (match ins.base, ins.opnd 0 with
     | Exec.OpcodeK.mov, Exec.Opnd.reg r => r.isStackPointer
     | _, _ => false)
  | _ => false

/-- The reconciliation `mov $sp` itself (step 5's emission). -/
def isReconMovSp {E : Type} : EmitItem E → Bool
  | EmitItem.movSp _ => true
  | _ => false

/-- A verbatim suffix clone. -/
def isSuffixClone {E : Type} : EmitItem E → Bool
  | EmitItem.suffixClone _ => true
  | _ => false

/-- The stack-pointer register descriptor. -/
def spReg : Exec.RegDesc :=
  { key := 0, bitOffset := 0, bitCount := 64, isStackPointer := true,
    isVolatile := false, isUndefined := false, isReadOnly := false, isFlags := false }

/-- A volatile register (not `?UD`). -/
def volReg : Exec.RegDesc :=
  { key := 1, bitOffset := 0, bitCount := 64, isStackPointer := false,
    isVolatile := true, isUndefined := false, isReadOnly := false, isFlags := false }

/-- A volatile `mov $sp, vr`: `execute` refuses to symbolize it (volatile
instruction, and its source register is volatile non-`?UD`), so `update`
captures it in the suffix; `reemit` replays it verbatim. -/
def movSpIns : Exec.Instr :=
  { base := Exec.OpcodeK.mov, operands := [Exec.Opnd.reg spReg, Exec.Opnd.reg volReg],
    sp_offset := 0, sp_index := 0, volatileFlag := true, readsMemory := false,
    memLoc := Option.none }

/-- Toy expression layer for concrete emission runs. -/
def toyROps : ReemitOps Nat :=
  { packAll := fun e => e
    translate := fun e => TOp.treg e
    isConst := fun _ => false
    fastMatch := fun _ => Option.none }

/-- Segment whose VM run folded `add $sp, 8` into the register state
(constant delta `8`) and whose suffix holds the volatile `mov $sp, vr`. -/
def toyRSeg : RSeg Nat :=
  { regs := [], mems := [],
    spEntry := some { bitmap := 1, newSp := 5, delta := some 8 },
    suffix := [movSpIns],
    is_branch_real := false, is_branch_exiting := false,
    branch_cc := Option.none, branch_targets := [],
    segEndPrevSpOffset := 0, blockEndSpOffset := 0 }

/-- Initial temporary-block bookkeeping. -/
def blk0 : BlkState := { sp_offset := 0, sp_index := 0, tmpCounter := 0 }

end Reemit

-- ======================================================================
-- Theorems
-- ======================================================================

namespace Update

theorem chainFrom_concat (s : UpdSegment) {b m : Nat} {l : List UpdSegment}
    (h : chainFrom b l m)
    (hb : s.segment_begin = m) (hle : s.segment_begin ≤ s.segment_end) :
    chainFrom b (l ++ [s]) s.segment_end := by
  induction l generalizing b with
  | nil => exact ⟨by simpa [chainFrom] using h ▸ hb.symm ▸ rfl, hle, rfl⟩
  | cons t rest ih =>
    obtain ⟨h1, h2, h3⟩ := h
    exact ⟨h1, h2, ih h3⟩

theorem chainFrom_concat_inv {b e : Nat} {l : List UpdSegment} {s : UpdSegment}
    (h : chainFrom b (l ++ [s]) e) :
    chainFrom b l s.segment_begin ∧ s.segment_begin ≤ s.segment_end ∧ s.segment_end = e := by
  induction l generalizing b with
  | nil =>
    obtain ⟨h1, h2, h3⟩ := h
    exact ⟨h1.symm, h2, by simpa [chainFrom] using h3⟩
  | cons t rest ih =>
    obtain ⟨h1, h2, h3⟩ := h
    obtain ⟨g1, g2, g3⟩ := ih h3
    exact ⟨⟨h1, h2, g1⟩, g2, g3⟩

theorem chainFrom_head {b e : Nat} {l : List UpdSegment} (h : chainFrom b l e)
    (hne : l ≠ []) : (l.head hne).segment_begin = b := by
  cases l with
  | nil => exact absurd rfl hne
  | cons s rest => exact h.1

theorem chainFrom_getLast {b e : Nat} {l : List UpdSegment} (h : chainFrom b l e)
    (hne : l ≠ []) : (l.getLast hne).segment_end = e := by
  obtain ⟨l', s, hl⟩ := (List.eq_nil_or_concat l).resolve_left hne
  rw [List.concat_eq_append] at hl
  subst hl
  rw [List.getLast_append]
  exact (chainFrom_concat_inv h).2.2

theorem chainFrom_le {b e : Nat} {l : List UpdSegment} (h : chainFrom b l e) :
    ∀ s ∈ l, s.segment_begin ≤ s.segment_end := by
  induction l generalizing b with
  | nil => intro s hs; cases hs
  | cons t rest ih =>
    intro s hs
    rcases List.mem_cons.mp hs with h1 | h1
    · exact h1 ▸ h.2.1
    · exact ih h.2.2 s h1

theorem chainFrom_adjacent {b e : Nat} {l : List UpdSegment} (h : chainFrom b l e) :
    ∀ k (hk : k + 1 < l.length),
      (l.get ⟨k, Nat.lt_of_succ_lt hk⟩).segment_end = (l.get ⟨k + 1, hk⟩).segment_begin := by
  induction l generalizing b with
  | nil => intro k hk; simp at hk
  | cons t rest ih =>
    intro k hk
    cases k with
    | zero =>
      cases rest with
      | nil => simp at hk
      | cons u rest2 => exact (h.2.2.1).symm
    | succ k2 =>
      exact ih h.2.2 k2 (by simpa using hk)

theorem updateGo_spec {run : Nat → RunOutcome} {n : Nat} (hc : RunContract run n) :
    ∀ fuel i acc, i ≤ n → n - i < fuel → AccOK run n acc i →
      chainFrom 0 (updateGo run n fuel i acc) n ∧
      (∀ s ∈ updateGo run n fuel i acc, SegGood run s ∧ s.segment_begin < n) ∧
      (∀ s ∈ (updateGo run n fuel i acc).dropLast,
        s.exit_reason ≠ VmExitReason.streamEnd ∧ s.exit_reason ≠ VmExitReason.none) := by
  intro fuel
  induction fuel with
  | zero => intro i acc h1 h2 _; omega
  | succ fuel ih =>
    intro i acc hle hfuel hacc
    by_cases hi : i = n
    · subst hi
      simp only [updateGo, if_pos rfl]
      exact ⟨hacc.1, fun s hs => ⟨(hacc.2 s hs).1, (hacc.2 s hs).2.1⟩,
        fun s hs => (hacc.2 s ((List.dropLast_sublist acc).subset hs)).2.2⟩
    · have hi' : i < n := Nat.lt_of_le_of_ne hle hi
      by_cases hse : (run i).reason = VmExitReason.streamEnd
      · simp only [updateGo, if_neg hi, if_pos hse]
        have hstop : (run i).stop = n := hc.stream_end_stop i hi' hse
        refine ⟨?_, ?_, ?_⟩
        · have h := chainFrom_concat (UpdSegment.fresh i (run i)) hacc.1 rfl
            (hc.stop_ge i hi')
          simpa [UpdSegment.fresh, hstop] using h
        · intro s hs
          rcases List.mem_append.mp hs with h1 | h1
          · exact ⟨(hacc.2 s h1).1, (hacc.2 s h1).2.1⟩
          · have h1 : s = UpdSegment.fresh i (run i) := by simpa using h1
            subst h1
            refine ⟨⟨rfl, rfl, rfl, ?_, ?_, fun _ => ⟨rfl, rfl⟩⟩, hi'⟩
            · intro h; rcases h with h | h <;>
                simp [UpdSegment.fresh, hse] at h
            · intro h; simp [UpdSegment.fresh, hse] at h
        · rw [List.dropLast_concat]
          intro s hs
          exact (hacc.2 s hs).2.2
      · simp only [updateGo, if_neg hi, if_neg hse]
        have hsle : i ≤ (run i).stop := hc.stop_ge i hi'
        have hslt : (run i).stop < n := hc.mid_stop_lt i hi' hse
        have hnone : (run i).reason ≠ VmExitReason.none := hc.not_none i hi'
        by_cases hal : (run i).reason = VmExitReason.aliasFailure
        · simp only [if_pos hal]
          refine ih ((run i).stop) (acc ++ [UpdSegment.fresh i (run i)])
            (le_of_lt hslt) ?_ ⟨?_, ?_⟩
          · have := hc.alias_progress i hi' hal
            omega
          · exact chainFrom_concat (UpdSegment.fresh i (run i)) hacc.1 rfl hsle
          · intro s hs
            rcases List.mem_append.mp hs with h1 | h1
            · exact hacc.2 s h1
            · have h1 : s = UpdSegment.fresh i (run i) := by simpa using h1
              subst h1
              refine ⟨⟨rfl, rfl, rfl, ?_, fun _ => ⟨rfl, rfl⟩, ?_⟩, hi', ?_, ?_⟩
              · intro h; rcases h with h | h <;>
                  simp [UpdSegment.fresh, hal] at h
              · intro h; simp [UpdSegment.fresh, hal] at h
              · simpa [UpdSegment.fresh] using hse
              · simpa [UpdSegment.fresh] using hnone
        · simp only [if_neg hal]
          have hhu : (run i).reason = VmExitReason.highArithmetic ∨
              (run i).reason = VmExitReason.unknownInstruction := by
            cases h : (run i).reason <;> simp_all
          have hfuel2 : n - ((run i).stop + 1) < fuel := by omega
          by_cases hemp : (run i).regSize = 0 ∧ (run i).memSize = 0
          · simp only [if_pos hemp]
            rcases List.eq_nil_or_concat acc with rfl | ⟨ys, y, hacc_eq⟩
            · simp only [List.getLast?_nil]
              have hi0 : i = 0 := by
                have h := hacc.1
                simpa [chainFrom] using h.symm
              refine ih ((run i).stop + 1) ([] ++ [UpdSegment.freshSuffixed i (run i)])
                hslt ?_ ⟨?_, ?_⟩
              · omega
              · exact chainFrom_concat (UpdSegment.freshSuffixed i (run i)) (by simpa [chainFrom] using hi0.symm) rfl
                  (show i ≤ (run i).stop + 1 by omega)
              · intro s hs
                have h1 : s = UpdSegment.freshSuffixed i (run i) := by simpa using hs
                subst h1
                refine ⟨⟨rfl, rfl, rfl, fun _ => rfl, ?_, ?_⟩, hi', ?_, ?_⟩
                · intro h; simp [UpdSegment.freshSuffixed, hal] at h
                · intro h; simp [UpdSegment.freshSuffixed, hse] at h
                · simpa [UpdSegment.freshSuffixed] using hse
                · simpa [UpdSegment.freshSuffixed] using hnone
            · rw [List.concat_eq_append] at hacc_eq
              subst hacc_eq
              simp only [List.getLast?_concat, List.dropLast_concat]
              have hy := hacc.2 y (by simp)
              obtain ⟨hyg, hybn, hyse, hynone⟩ := hy
              obtain ⟨hch, hyle, hyend⟩ := chainFrom_concat_inv hacc.1
              have hyal : y.exit_reason ≠ VmExitReason.aliasFailure := by
                intro h
                have hrs : (run y.segment_begin).reason = VmExitReason.aliasFailure :=
                  hyg.1 ▸ h
                have hstopy : (run y.segment_begin).stop = i := by
                  have := (hyg.2.2.2.2.1 h).2
                  omega
                have := hc.alias_retry_nonempty y.segment_begin hybn hrs
                rw [hstopy] at this
                exact this hemp
              have hyhu : y.exit_reason = VmExitReason.highArithmetic ∨
                  y.exit_reason = VmExitReason.unknownInstruction := by
                cases h : y.exit_reason <;> simp_all
              have hysuf : y.suffix.head? = some (run y.segment_begin).stop :=
                hyg.2.2.2.1 hyhu
              refine ih ((run i).stop + 1) (ys ++ [UpdSegment.foldInto y ((run i).stop)])
                hslt hfuel2 ⟨?_, ?_⟩
              · have h := chainFrom_concat (UpdSegment.foldInto y ((run i).stop)) hch
                  rfl (by simp only [UpdSegment.foldInto]; omega)
                simpa [UpdSegment.foldInto] using h
              · intro s hs
                rcases List.mem_append.mp hs with h1 | h1
                · exact hacc.2 s (by simp [h1])
                · have h1 : s = UpdSegment.foldInto y ((run i).stop) := by simpa using h1
                  subst h1
                  refine ⟨⟨hyg.1, hyg.2.1, hyg.2.2.1, ?_, ?_, ?_⟩, hybn, ?_, ?_⟩
                  · intro _
                    cases hsy : y.suffix with
                    | nil => rw [hsy] at hysuf; simp at hysuf
                    | cons a t =>
                      rw [hsy] at hysuf
                      simpa [UpdSegment.foldInto, hsy] using hysuf
                  · intro h
                    exact absurd (by simpa [UpdSegment.foldInto] using h) hyal
                  · intro h
                    exact absurd (by simpa [UpdSegment.foldInto] using h) hyse
                  · simpa [UpdSegment.foldInto] using hyse
                  · simpa [UpdSegment.foldInto] using hynone
          · simp only [if_neg hemp]
            refine ih ((run i).stop + 1) (acc ++ [UpdSegment.freshSuffixed i (run i)])
              hslt hfuel2 ⟨?_, ?_⟩
            · have h := chainFrom_concat (UpdSegment.freshSuffixed i (run i)) hacc.1
                rfl (show i ≤ (run i).stop + 1 by omega)
              simpa [UpdSegment.freshSuffixed] using h
            · intro s hs
              rcases List.mem_append.mp hs with h1 | h1
              · exact hacc.2 s h1
              · have h1 : s = UpdSegment.freshSuffixed i (run i) := by simpa using h1
                subst h1
                refine ⟨⟨rfl, rfl, rfl, fun _ => rfl, ?_, ?_⟩, hi', ?_, ?_⟩
                · intro h; simp [UpdSegment.freshSuffixed, hal] at h
                · intro h; simp [UpdSegment.freshSuffixed, hse] at h
                · simpa [UpdSegment.freshSuffixed] using hse
                · simpa [UpdSegment.freshSuffixed] using hnone

theorem update_spec {run : Nat → RunOutcome} {n : Nat} (hc : RunContract run n) :
    chainFrom 0 (update run n) n ∧
    (∀ s ∈ update run n, SegGood run s ∧ s.segment_begin < n) ∧
    (∀ s ∈ (update run n).dropLast,
      s.exit_reason ≠ VmExitReason.streamEnd ∧ s.exit_reason ≠ VmExitReason.none) :=
  updateGo_spec hc (n + 1) 0 [] (Nat.zero_le n) (by omega)
    ⟨rfl, fun s hs => absurd hs (List.not_mem_nil s)⟩

theorem seRun_contract : RunContract seRun 1 := by
  refine ⟨?_, ?_, ?_, ?_, ?_, ?_⟩ <;> decide

theorem aliasRun_contract : RunContract aliasRun 2 := by
  refine ⟨?_, ?_, ?_, ?_, ?_, ?_⟩ <;> decide

/-- Claim C2: for every basic block, after `update` the segment list is
non-empty and contiguous — the first segment's `segment_begin` equals
`block->begin()`, each segment's `segment_end` equals the next segment's
`segment_begin`, the last segment's `segment_end` equals `block->end()`, and
every segment satisfies `segment_begin ≤ segment_end` (one past the last
covered instruction, suffix included). -/
theorem claim_C2 (run : Nat → RunOutcome) (n : Nat) (hc : RunContract run n)
    (hn : 0 < n) : Contiguous n (update run n) := by
  obtain ⟨hch, -, -⟩ := update_spec hc
  have hne : update run n ≠ [] := by
    intro h
    rw [h] at hch
    have h0 : (0 : Nat) = n := hch
    omega
  exact ⟨hne, fun hne2 => ⟨chainFrom_head hch hne2, chainFrom_getLast hch hne2⟩,
    chainFrom_adjacent hch, chainFrom_le hch⟩

/-- Witness for C2: the one-instruction block terminated by a branch. -/
theorem claim_C2_witness :
    RunContract seRun 1 ∧ 0 < 1 ∧ Contiguous 1 (update seRun 1) :=
  ⟨seRun_contract, Nat.one_pos, claim_C2 seRun 1 seRun_contract Nat.one_pos⟩

/-- Counterexample to claim C3 as stated: on the `aliasRun` block the first
segment is not the last, exits with `alias_failure`, and its suffix is empty
rather than a one-element list holding the stopping instruction. -/
theorem claim_C3_cex : ¬ C3Stated aliasRun (update aliasRun 2) := by
  intro h
  exact absurd ((h 0 (by decide)).2) (by decide)

/-- Claim C3, amended: every segment except possibly the last exits with
`alias_failure`, `high_arithmetic` or `unknown_instruction`.  A segment that
exits with `high_arithmetic` or `unknown_instruction` has a non-empty suffix
whose first element is the instruction that stopped its VM run (empty-segment
folding may append further instructions after it); a segment that exits with
`alias_failure` has an empty suffix — its stopping instruction is not
captured. -/
theorem claim_C3_amended (run : Nat → RunOutcome) (n : Nat) (hc : RunContract run n) :
    (∀ s ∈ (update run n).dropLast,
      s.exit_reason = VmExitReason.aliasFailure ∨
      s.exit_reason = VmExitReason.highArithmetic ∨
      s.exit_reason = VmExitReason.unknownInstruction) ∧
    (∀ s ∈ update run n,
      (s.exit_reason = VmExitReason.highArithmetic ∨
       s.exit_reason = VmExitReason.unknownInstruction) →
      s.suffix ≠ [] ∧ s.suffix.head? = some (run s.segment_begin).stop) ∧
    (∀ s ∈ update run n, s.exit_reason = VmExitReason.aliasFailure → s.suffix = []) := by
  obtain ⟨hch, hseg, hmid⟩ := update_spec hc
  refine ⟨?_, ?_, ?_⟩
  · intro s hs
    have h := hmid s hs
    cases he : s.exit_reason <;> simp_all
  · intro s hs hhu
    have h := ((hseg s hs).1).2.2.2.1 hhu
    refine ⟨?_, h⟩
    intro hnil
    rw [hnil] at h
    simp at h
  · intro s hs hal
    exact (((hseg s hs).1).2.2.2.2.1 hal).1

/-- Witness for the amended C3 on the `aliasRun` block. -/
theorem claim_C3_witness :
    RunContract aliasRun 2 ∧
    (∀ s ∈ update aliasRun 2,
      s.exit_reason = VmExitReason.aliasFailure → s.suffix = []) :=
  ⟨aliasRun_contract, (claim_C3_amended aliasRun 2 aliasRun_contract).2.2⟩

/-- Claim C4: when a segment's run exits with `alias_failure`, the stopping
instruction is not consumed and is not appended to any suffix — the loop step
keeps every existing suffix untouched and closes the segment at the stopping
instruction — and the next segment starts at that same instruction with
fresh empty state (in this model `run j` is by definition the outcome of a
VM run started at `j` from empty register and memory state, so the next
segment recording `run` at its own `segment_begin` expresses exactly that
restart). -/
theorem claim_C4 (run : Nat → RunOutcome) (n : Nat) (hc : RunContract run n) :
    (∀ fuel i acc, i ≠ n → (run i).reason = VmExitReason.aliasFailure →
      updateGo run n (fuel + 1) i acc =
        updateGo run n fuel ((run i).stop) (acc ++ [UpdSegment.fresh i (run i)])) ∧
    (∀ k (hk : k < (update run n).length),
      ((update run n).get ⟨k, hk⟩).exit_reason = VmExitReason.aliasFailure →
      ((update run n).get ⟨k, hk⟩).suffix = [] ∧
      ((update run n).get ⟨k, hk⟩).segment_end =
        (run ((update run n).get ⟨k, hk⟩).segment_begin).stop ∧
      ∀ hk2 : k + 1 < (update run n).length,
        ((update run n).get ⟨k + 1, hk2⟩).segment_begin =
          ((update run n).get ⟨k, hk⟩).segment_end ∧
        ((update run n).get ⟨k + 1, hk2⟩).regSize =
          (run ((update run n).get ⟨k + 1, hk2⟩).segment_begin).regSize ∧
        ((update run n).get ⟨k + 1, hk2⟩).memSize =
          (run ((update run n).get ⟨k + 1, hk2⟩).segment_begin).memSize) := by
  obtain ⟨hch, hseg, hmid⟩ := update_spec hc
  refine ⟨?_, ?_⟩
  · intro fuel i acc hi hal
    simp only [updateGo, if_neg hi]
    rw [if_neg (by simp [hal]), if_pos hal]
  · intro k hk hal
    have hmem : (update run n).get ⟨k, hk⟩ ∈ update run n :=
      (update run n).get_mem k hk
    have hg := (hseg _ hmem).1
    refine ⟨(hg.2.2.2.2.1 hal).1, (hg.2.2.2.2.1 hal).2, ?_⟩
    intro hk2
    have hadj := chainFrom_adjacent hch k hk2
    have hmem2 : (update run n).get ⟨k + 1, hk2⟩ ∈ update run n :=
      (update run n).get_mem (k + 1) hk2
    have hg2 := (hseg _ hmem2).1
    exact ⟨hadj.symm, hg2.2.1, hg2.2.2.1⟩

/-- Witness for C4: the alias-failure step on the `aliasRun` block. -/
theorem claim_C4_witness :
    (0 : Nat) ≠ 2 ∧ (aliasRun 0).reason = VmExitReason.aliasFailure ∧
    updateGo aliasRun 2 6 0 [] =
      updateGo aliasRun 2 5 ((aliasRun 0).stop)
        ([] ++ [UpdSegment.fresh 0 (aliasRun 0)]) :=
  ⟨by decide, by decide,
    (claim_C4 aliasRun 2 aliasRun_contract).1 5 0 [] (by decide) (by decide)⟩

theorem updateGo_opaque {run : Nat → RunOutcome} {n : Nat}
    (hrun : ∀ i, i < n → run i =
      { stop := i, reason := VmExitReason.unknownInstruction, regSize := 0, memSize := 0 }) :
    ∀ fuel i prev, 0 < i → i ≤ n → n - i < fuel → prev.segment_end = i →
      updateGo run n fuel i [prev] =
        [{ prev with suffix := prev.suffix ++ List.range' i (n - i), segment_end := n }] := by
  intro fuel
  induction fuel with
  | zero => intro i prev h1 h2 h3 h4; omega
  | succ fuel ih =>
    intro i prev hpos hle hfuel hend
    by_cases hi : i = n
    · have h1 : updateGo run n (fuel + 1) i [prev] = [prev] := by
        simp [updateGo, hi]
      have h2 : n - i = 0 := by omega
      have h3 : prev.segment_end = n := by rw [hend, hi]
      rw [h1, h2, ← h3]
      simp
    · have hlt : i < n := Nat.lt_of_le_of_ne hle hi
      have hr := hrun i hlt
      have hres : (run i).reason = VmExitReason.unknownInstruction := by rw [hr]
      have hstop : (run i).stop = i := by rw [hr]
      have hreg : (run i).regSize = 0 := by rw [hr]
      have hmem : (run i).memSize = 0 := by rw [hr]
      simp only [updateGo, if_neg hi]
      rw [if_neg (by simp [hres]), if_neg (by simp [hres]), if_pos ⟨hreg, hmem⟩]
      simp only [List.getLast?_singleton, List.dropLast_single, List.nil_append]
      rw [hstop]
      have hstep := ih (i + 1) (UpdSegment.foldInto prev i) (Nat.succ_pos i) hlt
        (by omega) rfl
      rw [hstep]
      have harith : n - i = (n - (i + 1)) + 1 := by omega
      rw [harith, List.range'_succ]
      simp [UpdSegment.foldInto]

/-- Claim C5: during `update`, a segment that exits with `high_arithmetic` or
`unknown_instruction` while its register and memory state are both empty and
that is not the first segment is removed; the stopping instruction is
appended to the previous segment's suffix and that segment's `segment_end`
advances past it.  The first segment is never removed, and a block of opaque
instructions accumulates entirely in the first segment's suffix. -/
theorem claim_C5 (run : Nat → RunOutcome) (n : Nat) :
    (∀ fuel i ys y, i ≠ n →
      ((run i).reason = VmExitReason.highArithmetic ∨
       (run i).reason = VmExitReason.unknownInstruction) →
      (run i).regSize = 0 → (run i).memSize = 0 →
      updateGo run n (fuel + 1) i (ys ++ [y]) =
        updateGo run n fuel ((run i).stop + 1)
          (ys ++ [UpdSegment.foldInto y ((run i).stop)])) ∧
    (∀ fuel i, i ≠ n →
      ((run i).reason = VmExitReason.highArithmetic ∨
       (run i).reason = VmExitReason.unknownInstruction) →
      (run i).regSize = 0 → (run i).memSize = 0 →
      updateGo run n (fuel + 1) i [] =
        updateGo run n fuel ((run i).stop + 1) [UpdSegment.freshSuffixed i (run i)]) ∧
    (0 < n → (∀ i, i < n → run i =
        { stop := i, reason := VmExitReason.unknownInstruction,
          regSize := 0, memSize := 0 }) →
      update run n =
        [{ exit_reason := VmExitReason.unknownInstruction, segment_begin := 0,
           segment_end := n, suffix := List.range n, regSize := 0, memSize := 0 }]) := by
  refine ⟨?_, ?_, ?_⟩
  · intro fuel i ys y hi hhu hreg hmem
    have hse : (run i).reason ≠ VmExitReason.streamEnd := by
      rcases hhu with h | h <;> simp [h]
    have hal : (run i).reason ≠ VmExitReason.aliasFailure := by
      rcases hhu with h | h <;> simp [h]
    simp only [updateGo, if_neg hi, if_neg hse, if_neg hal]
    rw [if_pos (show (run i).regSize = 0 ∧ (run i).memSize = 0 from ⟨hreg, hmem⟩)]
    simp only [List.getLast?_concat, List.dropLast_concat]
  · intro fuel i hi hhu hreg hmem
    have hse : (run i).reason ≠ VmExitReason.streamEnd := by
      rcases hhu with h | h <;> simp [h]
    have hal : (run i).reason ≠ VmExitReason.aliasFailure := by
      rcases hhu with h | h <;> simp [h]
    simp only [updateGo, if_neg hi, if_neg hse, if_neg hal]
    rw [if_pos (show (run i).regSize = 0 ∧ (run i).memSize = 0 from ⟨hreg, hmem⟩)]
    simp only [List.getLast?_nil, List.nil_append]
  · intro hn hrun
    obtain ⟨m, rfl⟩ : ∃ m, n = m + 1 := ⟨n - 1, by omega⟩
    have h0 : (0 : Nat) ≠ m + 1 := by omega
    have hr0 := hrun 0 hn
    have h1 : update run (m + 1) =
        updateGo run (m + 1) (m + 1) 1 [UpdSegment.freshSuffixed 0 (run 0)] := by
      rw [update]
      simp only [updateGo, if_neg h0, hr0]
      rw [if_neg (by decide), if_neg (by decide), if_pos (by decide)]
      simp only [List.getLast?_nil, List.nil_append]
    rw [h1]
    have hstep := updateGo_opaque hrun (m + 1) 1
      (UpdSegment.freshSuffixed 0 (run 0)) Nat.one_pos (by omega) (by omega)
      (by rw [hr0]; rfl)
    rw [hstep]
    rw [List.range_eq_range', List.range'_succ]
    simp [UpdSegment.freshSuffixed, hr0]

/-- Witness for C5: a three-instruction fully opaque block collapses into one
segment whose suffix lists all three instructions. -/
theorem claim_C5_witness :
    0 < 3 ∧
    (∀ i, i < 3 → opaqueRun i =
      { stop := i, reason := VmExitReason.unknownInstruction,
        regSize := 0, memSize := 0 }) ∧
    update opaqueRun 3 =
      [{ exit_reason := VmExitReason.unknownInstruction, segment_begin := 0,
         segment_end := 3, suffix := List.range 3, regSize := 0, memSize := 0 }] :=
  ⟨by decide, by decide, (claim_C5 opaqueRun 3).2.2 (by decide) (by decide)⟩

end Update

namespace Exec

/-- Claim C8: executing a `js` instruction sets `branch_cc` to the symbolic
value of operand 0, appends exactly the symbolic values of operand 1 and
operand 2 to `branch_targets`, sets `is_branch_real` to `false`, and returns
`stream_end`; in the operand conversion a register operand is read through
`read_register`, a stack-pointer register operand additionally has the
instruction's `sp_offset` added, and an immediate operand becomes a constant
expression at its stated bit width. -/
theorem claim_C8 {E : Type} (ops : ExecOps E) (interp : Instr → VmExitReason)
    (o0 o1 o2 : Opnd) (spo spi : Int) (vol rm : Bool) (ml : Option (RegDesc × Int))
    (st : BranchState E) :
    (execute ops interp
        { base := OpcodeK.js, operands := [o0, o1, o2], sp_offset := spo,
          sp_index := spi, volatileFlag := vol, readsMemory := rm, memLoc := ml } st =
      (VmExitReason.streamEnd,
        { st with
          branch_targets := st.branch_targets ++
            [cvtOperand ops spo o1, cvtOperand ops spo o2],
          is_branch_real := false,
          branch_cc := some (cvtOperand ops spo o0) })) ∧
    (∀ r : RegDesc, cvtOperand ops spo (Opnd.reg r) =
      if r.isStackPointer then ops.addOff (ops.readReg r) spo else ops.readReg r) ∧
    (∀ v b, cvtOperand ops spo (Opnd.imm v b) = ops.constE v b) :=
  ⟨rfl, fun _ => rfl, fun _ _ => rfl⟩

end Exec

namespace Prep

theorem scanStep_skip {E : Type} (P : PrepOps E) (statement : E) (r : E × E × E) :
    ∀ l : List E,
      l.foldl (fun acc cc =>
        match acc with
        | some x => some x
        | Option.none => commitCheck P statement cc) (some r) = some r := by
  intro l
  induction l with
  | nil => rfl
  | cons c t ih => simpa using ih

theorem ccscan_eq_findSome {E : Type} (P : PrepOps E) (statement : E) :
    ccscan P statement = (P.enum statement).findSome? (commitCheck P statement) := by
  rw [ccscan]
  generalize P.enum statement = l
  induction l with
  | nil => rfl
  | cons c t ih =>
    rw [List.foldl_cons, List.findSome?_cons]
    cases hc : commitCheck P statement c with
    | none => simpa [hc] using ih
    | some r => simp [hc, scanStep_skip]

theorem findSome_first {α β : Type} (f : α → Option β) :
    ∀ (l : List α) (r : β), l.findSome? f = some r →
      ∃ pre c post, l = pre ++ c :: post ∧ (∀ e ∈ pre, f e = Option.none) ∧
        f c = some r := by
  intro l
  induction l with
  | nil => intro r h; simp at h
  | cons c t ih =>
    intro r h
    rw [List.findSome?_cons] at h
    cases hc : f c with
    | some b =>
      rw [hc] at h
      refine ⟨[], c, t, rfl, fun e he => absurd he (List.not_mem_nil e), ?_⟩
      rw [hc]
      simpa using h
    | none =>
      rw [hc] at h
      obtain ⟨pre, c2, post, rfl, hpre, hc2⟩ := ih r h
      refine ⟨c :: pre, c2, post, rfl, ?_, hc2⟩
      intro e he
      rcases List.mem_cons.mp he with rfl | he2
      · exact hc
      · exact hpre e he2

theorem commitCheck_eq_some {E : Type} (P : PrepOps E) (statement c : E)
    (out : E × E × E) :
    commitCheck P statement c = some out ↔
      Commits P statement c ∧ out = (c, P.sat statement c, P.nsat statement c) := by
  rw [commitCheck, Commits]
  by_cases h1 : P.mask1 c = true
  · rw [if_pos h1]
    by_cases h2 : P.hash (P.sat statement c) ≠ P.hash statement ∧
        P.hash (P.nsat statement c) ≠ P.hash statement
    · rw [if_pos h2]
      constructor
      · intro h
        exact ⟨⟨h1, h2.1, h2.2⟩, (Option.some_inj.mp h).symm⟩
      · intro h
        rw [h.2]
    · rw [if_neg h2]
      constructor
      · intro h; cases h
      · intro h
        exact absurd ⟨h.1.2.1, h.1.2.2⟩ h2
  · rw [if_neg h1]
    constructor
    · intro h; cases h
    · intro h
      exact absurd h.1.1 h1

/-- Claim C6: in the conditional-jump recovery of `prepare` — entered for a
segment with branch targets, no `branch_cc`, and a first target of depth
greater than 2 — a sub-expression is considered a candidate only if its
value mask is one bit; a candidate is committed iff both transformed targets
hash differently from the untransformed target; the first committing
candidate wins, setting `branch_cc = cc` and
`branch_targets = [cnd_sat, cnd_nsat]`; and once a commit happened no later
candidate changes the outcome. -/
theorem claim_C6 {E : Type} (P : PrepOps E) (pack : Bool) (s : PrepSeg E)
    (t0 : E) (rest : List E) (ht : s.branch_targets = t0 :: rest)
    (hcc : s.branch_cc = Option.none)
    (hd : P.depth (P.simplify true t0) > 2) :
    (∀ c, P.mask1 c = false → commitCheck P (P.simplify true t0) c = Option.none) ∧
    (∀ c out, commitCheck P (P.simplify true t0) c = some out ↔
      Commits P (P.simplify true t0) c ∧
      out = (c, P.sat (P.simplify true t0) c, P.nsat (P.simplify true t0) c)) ∧
    (∀ c cs cn, ccscan P (P.simplify true t0) = some (c, cs, cn) →
      Commits P (P.simplify true t0) c ∧
      cs = P.sat (P.simplify true t0) c ∧ cn = P.nsat (P.simplify true t0) c ∧
      (∃ pre post, P.enum (P.simplify true t0) = pre ++ c :: post ∧
        ∀ e2 ∈ pre, ¬ Commits P (P.simplify true t0) e2) ∧
      (prepareSeg P pack s).branch_cc = some c ∧
      (prepareSeg P pack s).branch_targets = [cs, cn]) ∧
    (ccscan P (P.simplify true t0) = Option.none →
      (prepareSeg P pack s).branch_cc = Option.none ∧
      (prepareSeg P pack s).branch_targets =
        P.simplify true t0 :: rest.map (P.simplify true)) ∧
    (∀ (r : E × E × E) (l : List E),
      l.foldl (fun acc cc =>
        match acc with
        | some x => some x
        | Option.none => commitCheck P (P.simplify true t0) cc) (some r) = some r) := by
  refine ⟨?_, ?_, ?_, ?_, ?_⟩
  · intro c hm
    rw [commitCheck, if_neg (by simp [hm])]
  · intro c out
    exact commitCheck_eq_some P (P.simplify true t0) c out
  · intro c cs cn hscan
    have hf := hscan
    rw [ccscan_eq_findSome] at hf
    obtain ⟨pre, c2, post, henum, hpre, hc2⟩ := findSome_first _ _ _ hf
    obtain ⟨hcom, hout⟩ := (commitCheck_eq_some P _ c2 _).mp hc2
    obtain ⟨rfl, rfl, rfl⟩ : c2 = c ∧ P.sat (P.simplify true t0) c2 = cs ∧
        P.nsat (P.simplify true t0) c2 = cn := by
      refine ⟨?_, ?_, ?_⟩ <;> · injection hout with h1 h2; simp_all
    refine ⟨hcom, rfl, rfl, ⟨pre, post, henum, ?_⟩, ?_, ?_⟩
    · intro e2 he2
      intro hcome2
      have : commitCheck P (P.simplify true t0) e2 =
          some (e2, P.sat (P.simplify true t0) e2, P.nsat (P.simplify true t0) e2) :=
        (commitCheck_eq_some P _ e2 _).mpr ⟨hcome2, rfl⟩
      rw [hpre e2 he2] at this
      cases this
    · simp only [prepareSeg, ht, hcc]
      rw [if_pos hd, hscan]
    · simp only [prepareSeg, ht, hcc]
      rw [if_pos hd, hscan]
  · intro hscan
    constructor
    · simp only [prepareSeg, ht, hcc]
      rw [if_pos hd, hscan]
    · simp only [prepareSeg, ht, hcc]
      rw [if_pos hd, hscan]
  · intro r l
    exact scanStep_skip P (P.simplify true t0) r l

/-- Witness for C6 on the toy layer: the sole (64-bit wide, 1-bit masked)
candidate commits, rewriting the branch fields. -/
theorem claim_C6_witness :
    (prepareSeg toyP true toySeg).branch_cc = some (7, 64) ∧
    (prepareSeg toyP true toySeg).branch_targets = [(1, 64), (2, 64)] := by
  have h := (claim_C6 toyP true toySeg (0, 64) [] rfl rfl (by decide)).2.2.1
    (7, 64) (1, 64) (2, 64) (by decide)
  exact ⟨h.2.2.2.2.1, h.2.2.2.2.2⟩

end Prep

/-- Counterexample to claim C9's 1-bit clause: on the toy layer — where an
expression is a `(tag, bit width)` pair — the conditional-jump recovery of
`prepare` commits a candidate of bit width 64 (its value mask is one bit,
which is all lines 305/346 test), so after `prepare` a present `branch_cc`
need not be a 1-bit expression. -/
theorem claim_C9_cex :
    ¬ (∀ c : Nat × Nat,
      (Prep.prepareSeg Prep.toyP true Prep.toySeg).branch_cc = some c → c.2 = 1) := by
  intro h
  have h2 := h (7, 64) (by decide)
  exact absurd h2 (by decide)

/-- Claim C9, amended: after `execute` populates the branch fields and still
after `prepare`, `branch_cc` is present iff `branch_targets` has exactly two
elements, and when absent there is exactly one target.  The 1-bit clause
holds in the weaker form the code guarantees: a `branch_cc` produced by
executing `js` has the stated 1-bit width of its operand, while a
`branch_cc` committed by conditional-jump recovery is only guaranteed a
1-bit value mask (`unknown_mask | known_one == 1`) and may be wider. -/
theorem claim_C9 :
    (∀ (E : Type) (ops : Exec.ExecOps E) (interp : Exec.Instr → VmExitReason)
      (ins : Exec.Instr), ins.base.isBranching = true →
      Exec.CardOK (Exec.execute ops interp ins (Exec.BranchState.init E)).2) ∧
    (∀ (E : Type) (P : Prep.PrepOps E) (pack : Bool) (s : Prep.PrepSeg E),
      (s.branch_targets ≠ [] → Exec.CardFields s.branch_cc s.branch_targets) →
      ((Prep.prepareSeg P pack s).branch_targets ≠ [] →
        Exec.CardFields (Prep.prepareSeg P pack s).branch_cc
          (Prep.prepareSeg P pack s).branch_targets)) ∧
    (∀ (E : Type) (ops : Exec.ExecOps E) (widthE : E → Nat),
      (∀ r, widthE (ops.readReg r) = r.bitCount) →
      (∀ e k, widthE (ops.addOff e k) = widthE e) →
      (∀ v b, widthE (ops.constE v b) = b) →
      ∀ (o0 : Exec.Opnd) (spo : Int), Exec.opndWidth o0 = 1 →
        widthE (Exec.cvtOperand ops spo o0) = 1) ∧
    (∀ (E : Type) (P : Prep.PrepOps E) (st c cs cn : E),
      Prep.ccscan P st = some (c, cs, cn) → P.mask1 c = true) := by
  refine ⟨?_, ?_, ?_, ?_⟩
  · intro E ops interp ins hbr
    cases hb : ins.base with
    | vexit =>
      simp [Exec.execute, hb, Exec.CardOK, Exec.CardFields, Exec.BranchState.init]
    | vxcall =>
      simp [Exec.execute, hb, Exec.CardOK, Exec.CardFields, Exec.BranchState.init]
    | jmp =>
      simp [Exec.execute, hb, Exec.CardOK, Exec.CardFields, Exec.BranchState.init]
    | js =>
      simp [Exec.execute, hb, Exec.CardOK, Exec.CardFields, Exec.BranchState.init]
    | mov =>
      rw [hb] at hbr
      exact absurd hbr (by simp [Exec.OpcodeK.isBranching])
    | str =>
      rw [hb] at hbr
      exact absurd hbr (by simp [Exec.OpcodeK.isBranching])
    | other k =>
      rw [hb] at hbr
      exact absurd hbr (by simp [Exec.OpcodeK.isBranching])
  · intro E P pack s h
    cases hts : s.branch_targets with
    | nil =>
      intro habs
      simp [Prep.prepareSeg, hts] at habs
    | cons t0 rest =>
      have hcard := h (by rw [hts]; simp)
      intro _
      cases hc : s.branch_cc with
      | some c =>
        have hne : s.branch_targets.length ≠ 1 := by
          intro h1
          have := hcard.1.mpr h1
          rw [hc] at this
          cases this
        have hlen2 : s.branch_targets.length = 2 := by
          rcases hcard.2 with h2 | h2
          · exact absurd h2 hne
          · exact h2
        have hrest : rest.length = 1 := by
          rw [hts] at hlen2
          simpa using hlen2
        have hres1 : (Prep.prepareSeg P pack s).branch_cc = some (P.simplify true c) := by
          simp [Prep.prepareSeg, hts, hc]
        have hres2 : (Prep.prepareSeg P pack s).branch_targets =
            P.simplify true t0 :: rest.map (P.simplify true) := by
          simp [Prep.prepareSeg, hts, hc]
        rw [Exec.CardFields, hres1, hres2]
        constructor
        · constructor
          · intro habs; cases habs
          · intro h1
            simp [hrest] at h1
        · right
          simp [hrest]
      | none =>
        have hlen1 : s.branch_targets.length = 1 := hcard.1.mp hc
        have hrest : rest = [] := by
          rw [hts] at hlen1
          simpa using hlen1
        subst hrest
        simp only [Prep.prepareSeg, hts, hc]
        by_cases hd : P.depth (P.simplify true t0) > 2
        · rw [if_pos hd]
          cases hscan : Prep.ccscan P (P.simplify true t0) with
          | none => simp [Exec.CardFields]
          | some out =>
            obtain ⟨c, cs, cn⟩ := out
            simp [Exec.CardFields]
        · rw [if_neg hd]
          simp [Exec.CardFields]
  · intro E ops widthE hr ha hc o0 spo hw
    cases o0 with
    | reg r =>
      rw [Exec.cvtOperand]
      by_cases hsp : r.isStackPointer = true
      · rw [if_pos hsp, ha, hr]
        exact hw
      · rw [if_neg hsp, hr]
        exact hw
    | imm v b =>
      rw [Exec.cvtOperand, hc]
      exact hw
  · intro E P st c cs cn hscan
    rw [Prep.ccscan_eq_findSome] at hscan
    obtain ⟨pre, c2, post, henum, hpre, hc2⟩ := Prep.findSome_first _ _ _ hscan
    obtain ⟨hcom, hout⟩ := (Prep.commitCheck_eq_some P st c2 _).mp hc2
    have : c2 = c := by
      injection hout with h1 h2
      exact h1.symm
    rw [← this]
    exact hcom.1

/-- Witness for the amended C9: the cardinality invariant after executing a
concrete `js` on the toy layer. -/
theorem claim_C9_witness :
    Exec.jsIns.base.isBranching = true ∧
    Exec.CardOK
      (Exec.execute Exec.toyXOps (fun _ => VmExitReason.none) Exec.jsIns
        (Exec.BranchState.init Nat)).2 :=
  ⟨by decide,
    claim_C9.1 Nat Exec.toyXOps (fun _ => VmExitReason.none) Exec.jsIns (by decide)⟩

namespace Reemit

theorem isSuffixClone_not_recon {E : Type} (it : EmitItem E)
    (h : isSuffixClone it = true) : isReconMovSp it = false := by
  cases it <;> simp [isSuffixClone, isReconMovSp] at *

theorem regWriteback_items {E : Type} (ops : ReemitOps E) (e : RegEntry E) :
    ∀ it ∈ regWriteback ops e, isMovToSp it = false ∧ isReconMovSp it = false := by
  intro it hit
  have hsp : ¬(e.bitmap = 0 ∨ e.key.isStackPointer = true) →
      e.key.isStackPointer = false := by
    intro h
    cases hb : e.key.isStackPointer
    · rfl
    · exact absurd (Or.inr hb) h
  simp only [regWriteback] at hit
  split at hit
  · cases hit
  next h1 =>
    split at hit
    · obtain ⟨i, hi, rfl⟩ := List.mem_map.mp hit
      refine ⟨?_, rfl⟩
      simp [isMovToSp]
      exact hsp h1
    · have h2 : it = EmitItem.movReg
          { e.key with bitCount := e.msbSize, bitOffset := msb64 e.bitmap }
          (ops.translate (ops.packAll e.fullVal)) := by
        simpa using hit
      subst h2
      refine ⟨?_, rfl⟩
      simp [isMovToSp]
      exact hsp h1

theorem memWriteback_items {E : Type} (ops : ReemitOps E) (blk : BlkState)
    (e : MemEntry E) :
    ∀ it ∈ (memWriteback ops blk e).2, isMovToSp it = false ∧ isReconMovSp it = false := by
  intro it hit
  rw [memWriteback.eq_def] at hit
  cases hd : e.spDisp with
  | some d =>
    rw [hd] at hit
    have h2 : it = EmitItem.strSp d (ops.translate (ops.packAll e.value)) := by
      simpa using hit
    subst h2
    exact ⟨rfl, rfl⟩
  | none =>
    rw [hd] at hit
    have hit2 : it ∈
        (if (ops.translate (memBaseSplit ops e).1).isImmediate = true then
          ({ blk with tmpCounter := blk.tmpCounter + 1 },
            [EmitItem.movHoist (TOp.treg blk.tmpCounter)
               (ops.translate (memBaseSplit ops e).1),
             EmitItem.strMem (TOp.treg blk.tmpCounter) (memBaseSplit ops e).2
               (ops.translate (ops.packAll e.value))])
        else (blk, [EmitItem.strMem (ops.translate (memBaseSplit ops e).1)
            (memBaseSplit ops e).2 (ops.translate (ops.packAll e.value))])).2 := hit
    by_cases hb : (ops.translate (memBaseSplit ops e).1).isImmediate = true
    · rw [if_pos hb] at hit2
      rcases List.mem_cons.mp hit2 with h2 | h2
      · subst h2; exact ⟨rfl, rfl⟩
      · have h3 : it = EmitItem.strMem (TOp.treg blk.tmpCounter) (memBaseSplit ops e).2
            (ops.translate (ops.packAll e.value)) := by
          simpa using h2
        subst h3; exact ⟨rfl, rfl⟩
    · rw [if_neg hb] at hit2
      have h2 : it = EmitItem.strMem (ops.translate (memBaseSplit ops e).1)
          (memBaseSplit ops e).2 (ops.translate (ops.packAll e.value)) := by
        simpa using hit2
      subst h2
      exact ⟨rfl, rfl⟩

theorem memFold_items {E : Type} (ops : ReemitOps E) :
    ∀ (l : List (MemEntry E)) (acc : BlkState × List (EmitItem E)),
      (∀ it ∈ acc.2, isMovToSp it = false ∧ isReconMovSp it = false) →
      ∀ it ∈ (l.foldl (fun acc e =>
          let r := memWriteback ops acc.1 e
          (r.1, acc.2 ++ r.2)) acc).2,
        isMovToSp it = false ∧ isReconMovSp it = false := by
  intro l
  induction l with
  | nil => intro acc h it hit; exact h it hit
  | cons x t ih =>
    intro acc h it hit
    refine ih _ ?_ it hit
    intro it2 hit2
    rcases List.mem_append.mp hit2 with h2 | h2
    · exact h it2 h2
    · exact memWriteback_items ops acc.1 x it2 h2

theorem suffixFold_clones {E : Type} (spIdxD spOffD : Int) :
    ∀ (l : List Exec.Instr) (acc : BlkState × List (EmitItem E)),
      (∀ it ∈ acc.2, isSuffixClone it = true) →
      ∀ it ∈ (l.foldl
          (fun acc iit =>
            let ins := adjustClone iit spIdxD spOffD
            ({ acc.1 with sp_index := ins.sp_index, sp_offset := ins.sp_offset },
              acc.2 ++ [EmitItem.suffixClone ins])) acc).2,
        isSuffixClone it = true := by
  intro l
  induction l with
  | nil => intro acc h it hit; exact h it hit
  | cons x t ih =>
    intro acc h it hit
    refine ih _ ?_ it hit
    intro it2 hit2
    rcases List.mem_append.mp hit2 with h2 | h2
    · exact h it2 h2
    · have h3 : it2 = EmitItem.suffixClone (adjustClone x spIdxD spOffD) := by
        simpa using h2
      subst h3
      rfl

theorem suffixEmit_items {E : Type} (sfx : List Exec.Instr) (d : Int) (blk : BlkState) :
    ∀ it ∈ (suffixEmit sfx d blk : BlkState × List (EmitItem E)).2, isSuffixClone it = true := by
  intro it hit
  rw [suffixEmit.eq_def] at hit
  split at hit
  · cases hit
  next first rest2 =>
    exact suffixFold_clones _ _ (first :: rest2) _
      (fun it2 h2 => absurd h2 (List.not_mem_nil it2)) it hit

theorem branchEmit_items {E : Type} (seg : RSeg E) (d : Int) (blk : BlkState)
    (ccOp : Option TOp) (tOps : List TOp) :
    ∀ it ∈ (branchEmit seg d blk ccOp tOps).2,
      isMovToSp it = false ∧ isReconMovSp it = false := by
  intro it hit
  rw [branchEmit.eq_def] at hit
  split at hit
  · cases hit
  · split at hit
    · split at hit
      · have h2 := hit; simp at h2; subst h2; exact ⟨rfl, rfl⟩
      · have h2 := hit; simp at h2; subst h2; exact ⟨rfl, rfl⟩
    · split at hit
      · split at hit
        · have h2 := hit; simp at h2; subst h2; exact ⟨rfl, rfl⟩
        · have h2 := hit; simp at h2; subst h2; exact ⟨rfl, rfl⟩
      · have h2 := hit; simp at h2; subst h2; exact ⟨rfl, rfl⟩

theorem spReconcile_delta {E : Type} (ops : ReemitOps E) (e : SpEntry E)
    (blk : BlkState) (d : Int) (hbm : e.bitmap ≠ 0) (hd : e.delta = some d) :
    spReconcile ops (some e) blk =
      ({ blk with sp_offset := blk.sp_offset + d }, [EmitItem.shiftSp d], d) := by
  rw [spReconcile, if_pos hbm, hd]

theorem spReconcile_mov {E : Type} (ops : ReemitOps E) (e : SpEntry E)
    (blk : BlkState) (hbm : e.bitmap ≠ 0) (hd : e.delta = Option.none) :
    spReconcile ops (some e) blk =
      (blk, [EmitItem.movSp (ops.translate (ops.packAll e.newSp))], 0) := by
  rw [spReconcile, if_pos hbm, hd]

theorem step2Of_items {E : Type} (ops : ReemitOps E) (seg : RSeg E) (blk0 : BlkState) :
    ∀ it ∈ (step2Of ops seg blk0).2, isMovToSp it = false ∧ isReconMovSp it = false := by
  intro it hit
  exact memFold_items ops seg.mems (blk0, []) (fun it2 h2 => absurd h2 (List.not_mem_nil it2))
    it hit

theorem buf1Of_items {E : Type} (ops : ReemitOps E) (seg : RSeg E) :
    ∀ it ∈ buf1Of ops seg, isMovToSp it = false ∧ isReconMovSp it = false := by
  intro it hit
  obtain ⟨e, he, hmem⟩ := List.mem_flatMap.mp hit
  exact regWriteback_items ops e it hmem

/-- Claim C7, amended: for every segment whose register state contains a
write to the stack pointer, if the new `$sp` value minus the initial `$sp`
at `segment_begin` resolves to a constant `δ`, then `reemit` emits no
`mov $sp` for that segment other than instructions replayed verbatim from
the segment's suffix, and instead calls `shift_sp( δ )` — advancing
`temporary_block.sp_offset` by `δ` — with `sp_offset_d = δ`; otherwise it
emits exactly one `mov $sp`, carrying the packed translated value, and the
extra offset stays `0`. -/
theorem claim_C7 {E : Type} (ops : ReemitOps E) (seg : RSeg E) (blkIn : BlkState)
    (e : SpEntry E) (hsp : seg.spEntry = some e) (hbm : e.bitmap ≠ 0) :
    (∀ d : Int, e.delta = some d →
      (reemitSegment ops seg blkIn).sp_offset_d = d ∧
      (∀ it ∈ (reemitSegment ops seg blkIn).items,
        isMovToSp it = true → isSuffixClone it = true) ∧
      EmitItem.shiftSp d ∈ (reemitSegment ops seg blkIn).items ∧
      (∀ blk : BlkState,
        (spReconcile ops (some e) blk).1.sp_offset = blk.sp_offset + d ∧
        (spReconcile ops (some e) blk).2.1 = [EmitItem.shiftSp d])) ∧
    (e.delta = Option.none →
      (reemitSegment ops seg blkIn).sp_offset_d = 0 ∧
      (reemitSegment ops seg blkIn).items.countP (fun it => isReconMovSp it) = 1 ∧
      EmitItem.movSp (ops.translate (ops.packAll e.newSp)) ∈
        (reemitSegment ops seg blkIn).items ∧
      (∀ blk : BlkState,
        (spReconcile ops (some e) blk).1.sp_offset = blk.sp_offset)) := by
  constructor
  · intro d hd
    have h5 : step5Of ops seg blkIn =
        ({ (step2Of ops seg blkIn).1 with
            sp_offset := (step2Of ops seg blkIn).1.sp_offset + d },
          [EmitItem.shiftSp d], d) := by
      rw [step5Of, hsp]
      exact spReconcile_delta ops e _ d hbm hd
    refine ⟨?_, ?_, ?_, ?_⟩
    · show (step5Of ops seg blkIn).2.2 = d
      rw [h5]
    · intro it hit hmov
      have hit2 : it ∈ buf1Of ops seg ++ (step2Of ops seg blkIn).2 ++
          (step5Of ops seg blkIn).2.1 ++ (step6Of ops seg blkIn).2 ++
          (step8Of ops seg blkIn).2 := hit
      rcases List.mem_append.mp hit2 with h1 | h8
      · rcases List.mem_append.mp h1 with h2 | h6
        · rcases List.mem_append.mp h2 with h3 | h55
          · rcases List.mem_append.mp h3 with hb1 | hs2
            · exact absurd hmov (by simp [(buf1Of_items ops seg it hb1).1])
            · exact absurd hmov (by simp [(step2Of_items ops seg blkIn it hs2).1])
          · rw [h5] at h55
            have : it = EmitItem.shiftSp d := by simpa using h55
            subst this
            cases hmov
        · rw [step6Of] at h6
          exact suffixEmit_items _ _ _ it h6
      · rw [step8Of] at h8
        exact absurd hmov (by simp [(branchEmit_items _ _ _ _ _ it h8).1])
    · have hm : EmitItem.shiftSp d ∈ (step5Of ops seg blkIn).2.1 := by
        rw [h5]
        exact List.mem_singleton_self _
      exact List.mem_append_left _ (List.mem_append_left _ (List.mem_append_right _ hm))
    · intro blk
      rw [spReconcile_delta ops e blk d hbm hd]
      exact ⟨rfl, rfl⟩
  · intro hd
    have h5 : step5Of ops seg blkIn =
        ((step2Of ops seg blkIn).1,
          [EmitItem.movSp (ops.translate (ops.packAll e.newSp))], 0) := by
      rw [step5Of, hsp]
      exact spReconcile_mov ops e _ hbm hd
    refine ⟨?_, ?_, ?_, ?_⟩
    · show (step5Of ops seg blkIn).2.2 = 0
      rw [h5]
    · show (buf1Of ops seg ++ (step2Of ops seg blkIn).2 ++
          (step5Of ops seg blkIn).2.1 ++ (step6Of ops seg blkIn).2 ++
          (step8Of ops seg blkIn).2).countP (fun it => isReconMovSp it) = 1
      rw [List.countP_append, List.countP_append, List.countP_append,
        List.countP_append]
      have c1 : (buf1Of ops seg).countP (fun it => isReconMovSp it) = 0 :=
        List.countP_eq_zero.mpr (fun a ha => by simp [(buf1Of_items ops seg a ha).2])
      have c2 : ((step2Of ops seg blkIn).2).countP (fun it => isReconMovSp it) = 0 :=
        List.countP_eq_zero.mpr
          (fun a ha => by simp [(step2Of_items ops seg blkIn a ha).2])
      have c5 : ((step5Of ops seg blkIn).2.1).countP (fun it => isReconMovSp it) = 1 := by
        rw [h5]
        rfl
      have c6 : ((step6Of ops seg blkIn).2).countP (fun it => isReconMovSp it) = 0 :=
        List.countP_eq_zero.mpr (fun a ha => by
          rw [step6Of] at ha
          simp [isSuffixClone_not_recon a (suffixEmit_items _ _ _ a ha)])
      have c8 : ((step8Of ops seg blkIn).2).countP (fun it => isReconMovSp it) = 0 :=
        List.countP_eq_zero.mpr (fun a ha => by
          rw [step8Of] at ha
          simp [(branchEmit_items _ _ _ _ _ a ha).2])
      rw [c1, c2, c5, c6, c8]
    · have hm : EmitItem.movSp (ops.translate (ops.packAll e.newSp)) ∈
          (step5Of ops seg blkIn).2.1 := by
        rw [h5]
        exact List.mem_singleton_self _
      exact List.mem_append_left _ (List.mem_append_left _ (List.mem_append_right _ hm))
    · intro blk
      rw [spReconcile_mov ops e blk hbm hd]

/-- Counterexample to claim C7 as stated: a segment whose `$sp` delta
resolves to the constant `8` but whose suffix holds a volatile
`mov $sp, vr` (captured by `update` because `execute` refuses it) — `reemit`
replays that clone, so it does emit a `mov` to `$sp` for the segment. -/
theorem claim_C7_cex :
    toyRSeg.spEntry = some { bitmap := 1, newSp := 5, delta := some 8 } ∧
    (reemitSegment toyROps toyRSeg blk0).items.countP (fun it => isMovToSp it) ≠ 0 :=
  ⟨rfl, by decide⟩

/-- Witness for the amended C7 on the toy segment: `sp_offset_d = 8`, the
only `mov $sp` in the trace is the verbatim suffix clone, and `shift_sp`
advances the block's `sp_offset` by `8`. -/
theorem claim_C7_witness :
    (reemitSegment toyROps toyRSeg blk0).sp_offset_d = 8 ∧
    (∀ it ∈ (reemitSegment toyROps toyRSeg blk0).items,
      isMovToSp it = true → isSuffixClone it = true) ∧
    EmitItem.shiftSp 8 ∈ (reemitSegment toyROps toyRSeg blk0).items ∧
    (∀ blk : BlkState,
      (spReconcile toyROps (some { bitmap := 1, newSp := 5, delta := some 8 }) blk).1.sp_offset =
        blk.sp_offset + 8 ∧
      (spReconcile toyROps (some { bitmap := 1, newSp := 5, delta := some 8 }) blk).2.1 =
        [EmitItem.shiftSp 8]) :=
  (claim_C7 toyROps toyRSeg blk0 { bitmap := 1, newSp := 5, delta := some 8 }
    rfl (by decide)).1 8 rfl

end Reemit

namespace Track

theorem readRegister_not_executing {E RS MS : Type}
    (regRead : RS → Exec.RegDesc → E × Nat) (s : TrackSeg E RS MS)
    (d : Exec.RegDesc) (h : s.is_executing = false) :
    (readRegister regRead s d).2 = s := by
  rw [readRegister]
  rw [if_neg (by simp [h])]

theorem readMemory_not_executing {E RS MS : Type}
    (memRead : MS → Nat → Nat → E × Nat) (s : TrackSeg E RS MS)
    (p b : Nat) (h : s.is_executing = false) :
    (readMemory memRead s p b).2 = s := by
  rw [readMemory]
  rw [if_neg (by simp [h])]

/-- Claim C10: `reemit` leaves the analysis unchanged — the register reads
it performs (the full-slice writeback reads and the `$sp` reconciliation
read) never add entries to the reference maps and leave every segment field
(register state, memory state, suffix, branch fields, both reference maps)
identical, because reference tracking is guarded by `is_executing`, which is
set only for the duration of `execute` and cleared again on every exit
path. -/
theorem claim_C10 {E RS MS : Type} (regRead : RS → Exec.RegDesc → E × Nat)
    (memRead : MS → Nat → Nat → E × Nat) :
    (∀ (s : TrackSeg E RS MS) (d : Exec.RegDesc), s.is_executing = false →
      (readRegister regRead s d).2 = s) ∧
    (∀ (s : TrackSeg E RS MS) (p b : Nat), s.is_executing = false →
      (readMemory memRead s p b).2 = s) ∧
    (∀ (descs : List Exec.RegDesc) (s : TrackSeg E RS MS), s.is_executing = false →
      reemitReads regRead descs s = s) ∧
    (∀ (A : Type) (body : TrackSeg E RS MS → A × TrackSeg E RS MS)
      (s : TrackSeg E RS MS), (executeGuarded body s).2.is_executing = false) := by
  refine ⟨?_, ?_, ?_, ?_⟩
  · intro s d h
    exact readRegister_not_executing regRead s d h
  · intro s p b h
    exact readMemory_not_executing memRead s p b h
  · intro descs
    induction descs with
    | nil => intro s h; rfl
    | cons d t ih =>
      intro s h
      rw [reemitReads, List.foldl_cons, readRegister_not_executing regRead s d h]
      exact ih s h
  · intro A body s
    rfl

/-- Witness for C10: on a quiescent toy segment the writeback and `$sp`
reads change nothing. -/
theorem claim_C10_witness :
    seg0.is_executing = false ∧
    reemitReads regRead0 [Reemit.spReg, Reemit.volReg] seg0 = seg0 :=
  ⟨rfl, (claim_C10 regRead0 memRead0).2.2.1 [Reemit.spReg, Reemit.volReg] seg0 rfl⟩

end Track

end VTILA
